import Mathlib

/-!
Verification development for the batchop repository.

This file shallowly embeds the parts of the program that the claims concern:
the filter predicates and their conjunctive evaluation (src/batchop/filters.py,
src/batchop/fileset2.py), the lazy traversal engine (src/batchop/fileset2.py),
the command parser fragments (src/batchop/parsing.py, src/batchop/patterns.py,
src/batchop/common.py), and the undo ledger together with the orchestrator
operations delete/undo (src/batchop/batchop2.py, src/batchop/db.py).

Filesystem paths are modelled as lists of name components relative to a root
(`Path` below).  A directory tree of regular files is modelled as a list of
(path, byte content) entries; moving a path (Python `shutil.move` to a
destination that does not exist yet) rewrites the leading components of every
entry under the source.  Ambient filesystem queries performed by filters
(`Path.is_file`, `Path.is_dir`, `stat().st_size`) are modelled by an explicit
`Stat` oracle passed to `Filter.test`.
-/

namespace Batchop

/-- A filesystem path, as its list of name components. -/
abbrev Path := List String

/-- File content, as a list of bytes. -/
abbrev Content := List Nat

/-- The `isUnder a p`: `p` equals `a` or lies strictly below `a`
(the component list `a` is an initial segment of `p`).
This models Python `p.is_relative_to(a)` on resolved absolute paths. -/
def isUnder : Path → Path → Bool
  | [], _ => true
  | _ :: _, [] => false
  | a :: as, b :: bs => a == b && isUnder as bs

/-- The `strictUnder a p`: `p` lies strictly below `a`. -/
def strictUnder (a p : Path) : Bool :=
  isUnder a p && !(p == a)

/-- Two paths are unrelated when neither lies at-or-under the other.
Two distinct files or directories that are not nested satisfy this. -/
def unrelated (a b : Path) : Bool :=
  !(isUnder a b) && !(isUnder b a)

theorem isUnder_refl (a : Path) : isUnder a a = true := by
  induction a with
  | nil => rfl
  | cons x xs ih => simp [isUnder, ih]

theorem isUnder_append (a r : Path) : isUnder a (a ++ r) = true := by
  induction a with
  | nil => rfl
  | cons x xs ih => simp [isUnder, ih]

theorem isUnder_iff_append (a p : Path) :
    isUnder a p = true ↔ ∃ r, p = a ++ r := by
  induction a generalizing p with
  | nil => simp [isUnder]
  | cons x xs ih =>
    cases p with
    | nil => simp [isUnder]
    | cons y ys =>
      simp only [isUnder, Bool.and_eq_true, beq_iff_eq, ih]
      constructor
      · rintro ⟨hxy, r, hr⟩
        exact ⟨r, by simp [hxy, hr]⟩
      · rintro ⟨r, hr⟩
        simp only [List.cons_append, List.cons.injEq] at hr
        exact ⟨hr.1.symm, r, hr.2⟩

theorem append_drop_of_isUnder {a p : Path} (h : isUnder a p = true) :
    a ++ p.drop a.length = p := by
  rcases (isUnder_iff_append a p).mp h with ⟨r, rfl⟩
  simp

theorem isUnder_of_append_eq_append {a b r s : Path} (h : a ++ r = b ++ s)
    (hlen : a.length ≤ b.length) : isUnder a b = true := by
  induction a generalizing b with
  | nil => rfl
  | cons x xs ih =>
    cases b with
    | nil => simp at hlen
    | cons y ys =>
      simp only [List.cons_append, List.cons.injEq] at h
      simp only [List.length_cons, Nat.add_le_add_iff_right] at hlen
      simp [isUnder, h.1, ih h.2 hlen]

/-- Two ancestors of the same path are comparable. -/
theorem isUnder_comparable {a b p : Path} (ha : isUnder a p = true)
    (hb : isUnder b p = true) : isUnder a b = true ∨ isUnder b a = true := by
  rcases (isUnder_iff_append a p).mp ha with ⟨r, hr⟩
  rcases (isUnder_iff_append b p).mp hb with ⟨s, hs⟩
  rw [hr] at hs
  rcases le_total a.length b.length with hle | hle
  · exact Or.inl (isUnder_of_append_eq_append hs hle)
  · exact Or.inr (isUnder_of_append_eq_append hs.symm hle)

/-- If `a` is unrelated to `d`, nothing under `d` is under `a`. -/
theorem not_isUnder_of_unrelated_left {a d : Path} (h : unrelated a d = true)
    (p : Path) (hp : isUnder d p = true) : isUnder a p = false := by
  by_contra hcon
  rw [Bool.not_eq_false] at hcon
  simp only [unrelated, Bool.and_eq_true, Bool.not_eq_true'] at h
  rcases isUnder_comparable hcon hp with hc | hc
  · rw [h.1] at hc; exact Bool.false_ne_true hc
  · rw [h.2] at hc; exact Bool.false_ne_true hc

/-! ### The filesystem model

A tree of regular files is a list of `(path, content)` entries.
`shutil.move src dst` with a fresh destination renames the subtree rooted at
`src` to `dst`: every entry at-or-under `src` has that leading segment of its
path replaced by `dst`; other entries are untouched. -/

/-- One regular file: its path and its byte content. -/
abbrev FsEntry := Path × Content

/-- A directory tree of regular files. -/
abbrev FS := List FsEntry

/-- Effect of `shutil.move src dst` on a single path. -/
def movePath (src dst p : Path) : Path :=
  if isUnder src p then dst ++ p.drop src.length else p

/-- Effect of `shutil.move src dst` on the whole tree
(destination assumed not to exist yet, so nothing is overwritten). -/
def moveFS (src dst : Path) (fs : FS) : FS :=
  fs.map (fun e => (movePath src dst e.1, e.2))

/-- Models Python `Path.exists()` for `p` against the tree:
some file lies at `p` or below it (directories exist through their files). -/
def pexists (fs : FS) (p : Path) : Bool :=
  fs.any (fun e => isUnder p e.1)

theorem movePath_of_isUnder {src p : Path} (dst : Path)
    (h : isUnder src p = true) : movePath src dst p = dst ++ p.drop src.length := by
  simp [movePath, h]

theorem movePath_of_not_isUnder {src p : Path} (dst : Path)
    (h : isUnder src p = false) : movePath src dst p = p := by
  simp [movePath, h]

/-- Moving `p` from `src` to `dst` and back restores `p`, provided `p` was
not already under `dst`. -/
theorem movePath_roundtrip {src dst p : Path}
    (hp : isUnder dst p = false) :
    movePath dst src (movePath src dst p) = p := by
  by_cases h : isUnder src p = true
  · rw [movePath_of_isUnder dst h]
    rw [movePath_of_isUnder src (isUnder_append dst _)]
    simp [append_drop_of_isUnder h]
  · rw [movePath_of_not_isUnder dst (by simpa using h)]
    rw [movePath_of_not_isUnder src hp]

/-- Moves with pairwise-unrelated sources and destinations commute. -/
theorem movePath_comm {a b c d : Path} (p : Path)
    (hac : unrelated a c = true) (had : unrelated a d = true)
    (hbc : unrelated b c = true) :
    movePath a b (movePath c d p) = movePath c d (movePath a b p) := by
  by_cases hc : isUnder c p = true
  · have ha : isUnder a p = false := not_isUnder_of_unrelated_left hac p hc
    rw [movePath_of_isUnder d hc]
    have had' : isUnder a (d ++ p.drop c.length) = false :=
      not_isUnder_of_unrelated_left had _ (isUnder_append d _)
    rw [movePath_of_not_isUnder b had']
    rw [movePath_of_not_isUnder b ha]
    rw [movePath_of_isUnder d hc]
  · by_cases ha : isUnder a p = true
    · have hc' : isUnder c p = false := by simpa using hc
      rw [movePath_of_not_isUnder d hc']
      rw [movePath_of_isUnder b ha]
      have hcb : isUnder c (b ++ p.drop a.length) = false := by
        have := not_isUnder_of_unrelated_left
          (by simp only [unrelated, Bool.and_comm] at hbc ⊢; exact hbc) _
          (isUnder_append b (p.drop a.length))
        exact this
      rw [movePath_of_not_isUnder d hcb]
    · have ha' : isUnder a p = false := by simpa using ha
      have hc' : isUnder c p = false := by simpa using hc
      rw [movePath_of_not_isUnder d hc', movePath_of_not_isUnder b ha',
        movePath_of_not_isUnder d hc']

/-- The `isUnder b` is untouched by a move whose endpoints are unrelated to `b`. -/
theorem isUnder_movePath {b c d : Path} (p : Path)
    (hbc : unrelated b c = true) (hbd : unrelated b d = true) :
    isUnder b (movePath c d p) = isUnder b p := by
  by_cases hc : isUnder c p = true
  · rw [movePath_of_isUnder d hc]
    have h1 : isUnder b (d ++ p.drop c.length) = false :=
      not_isUnder_of_unrelated_left hbd _ (isUnder_append d _)
    have h2 : isUnder b p = false := not_isUnder_of_unrelated_left hbc p hc
    rw [h1, h2]
  · rw [movePath_of_not_isUnder d (by simpa using hc)]

theorem pexists_moveFS {b c d : Path} (fs : FS)
    (hbc : unrelated b c = true) (hbd : unrelated b d = true) :
    pexists (moveFS c d fs) b = pexists fs b := by
  simp only [pexists, moveFS, List.any_map]
  congr 1
  funext e
  simp only [Function.comp]
  exact isUnder_movePath e.1 hbc hbd

theorem moveFS_comm {a b c d : Path} (fs : FS)
    (hac : unrelated a c = true) (had : unrelated a d = true)
    (hbc : unrelated b c = true) :
    moveFS a b (moveFS c d fs) = moveFS c d (moveFS a b fs) := by
  simp only [moveFS, List.map_map]
  apply List.map_congr_left
  intro e _
  simp only [Function.comp]
  rw [movePath_comm e.1 hac had hbc]

/-- A move whose source does not exist in the tree leaves it unchanged. -/
theorem moveFS_of_not_pexists {src : Path} (dst : Path) {fs : FS}
    (h : pexists fs src = false) : moveFS src dst fs = fs := by
  simp only [pexists, List.any_eq_false] at h
  simp only [moveFS]
  conv_rhs => rw [← List.map_id fs]
  apply List.map_congr_left
  intro e he
  have := h e he
  rw [movePath_of_not_isUnder dst (by simpa using this)]
  rfl

theorem moveFS_roundtrip {src dst : Path} {fs : FS}
    (hfresh : pexists fs dst = false) :
    moveFS dst src (moveFS src dst fs) = fs := by
  simp only [pexists, List.any_eq_false] at hfresh
  simp only [moveFS, List.map_map]
  conv_rhs => rw [← List.map_id fs]
  apply List.map_congr_left
  intro e he
  simp only [Function.comp]
  rw [movePath_roundtrip (by simpa using hfresh e he)]
  rfl

/-! ### Filters (src/batchop/filters.py)

`Result = Union[bool, Tuple[bool, bool]]`; a tuple is `(include_self,
include_children)`.  Filters that consult the filesystem (`is_file`,
`is_dir`, `stat().st_size`) do so through an explicit `Stat` oracle.
`Path.name` is the last component (empty for the empty path), `Path.parts`
are the components of the root-relative path. -/

/-- Python `Path.name`: the final path component. -/
def pathName (p : Path) : String :=
  p.getLastD ""

/-- ASCII lowering of one character (`str.lower` on the ASCII range that
the keywords and unit names of the parser inhabit). -/
def lowerChar (c : Char) : Char :=
  if 'A' ≤ c && c ≤ 'Z' then Char.ofNat (c.toNat + 32) else c

/-- Python `str.lower()`. -/
def pyLower (s : String) : String :=
  String.mk (s.data.map lowerChar)

/-- Python `s.startswith(".")`. -/
def startsWithDot (s : String) : Bool :=
  match s.data with
  | [] => false
  | c :: _ => c == '.'

/-- Result of `Filter.test`: either a plain boolean or an
`(include_self, include_children)` tuple. -/
inductive Result where
  | bool (b : Bool)
  | pair (includeSelf includeChildren : Bool)
  deriving DecidableEq, Repr

/-- The `expand_result` from filters.py: a plain boolean means
`(b, include_children := True)`. -/
def expand_result : Result → Bool × Bool
  | .pair i c => (i, c)
  | .bool b => (b, true)

/-- Oracle for the ambient filesystem queries a filter may perform. -/
structure Stat where
  isFile : Path → Bool
  isDir : Path → Bool
  size : Path → Nat

/-- The filter variants relevant to the claims, one constructor per
`Filter` subclass in filters.py (glob/regex/emptiness variants are omitted:
no claim mentions them and they would only enlarge the oracle surface). -/
inductive Filter where
  | filterTrue
  | isDirectory
  | isFile
  | negated (inner : Filter)
  | isInPath (path : Path)
  | isNotInPath (path : Path)
  | isHidden
  | isNotHidden
  | sizeGreater (byteCount : Nat)
  | sizeGreaterEqual (byteCount : Nat)
  | sizeLess (byteCount : Nat)
  | sizeLessEqual (byteCount : Nat)
  | exclude (path : Path)
  deriving DecidableEq, Repr

/-- The `test_is_in_exact(to_include, to_test)` from filters.py:
`to_test.is_relative_to(to_include) and to_test != to_include`. -/
def test_is_in_exact (toInclude toTest : Path) : Bool :=
  isUnder toInclude toTest && !(toTest == toInclude)

/-- The `Filter.test` of each subclass, translated clause by clause.
The size filters translate Python `p.is_file() and <cmp>`, whose value is
the boolean `False` when `p` is not a regular file. -/
def Filter.test (st : Stat) : Filter → Path → Result
  | .filterTrue, _ => .bool true
  | .isDirectory, p => .bool (st.isDir p)
  | .isFile, p => .bool (st.isFile p)
  | .negated inner, p =>
    match inner.test st p with
    | .pair i c => .pair (!i) c
    | .bool b => .bool (!b)
  | .isInPath x, p => .bool (test_is_in_exact x p)
  | .isNotInPath x, p =>
    if test_is_in_exact x p then .pair true false else .bool true
  | .isHidden, p => .bool (p.any (fun s => startsWithDot s))
  | .isNotHidden, p =>
    if startsWithDot (pathName p) then .pair false false else .bool true
  | .sizeGreater n, p => .bool (st.isFile p && decide (st.size p > n))
  | .sizeGreaterEqual n, p => .bool (st.isFile p && decide (st.size p ≥ n))
  | .sizeLess n, p => .bool (st.isFile p && decide (st.size p < n))
  | .sizeLessEqual n, p => .bool (st.isFile p && decide (st.size p ≤ n))
  | .exclude x, p => if x == p then .pair false false else .bool true

/-- The `Filter.negate`: the generic wrapper, with the two specialized
negations (`FilterIsInPath`, `FilterIsHidden`) overriding it. -/
def Filter.negate : Filter → Filter
  | .isInPath x => .isNotInPath x
  | .isHidden => .isNotHidden
  | f => .negated f

/-! ### FilterSet.test (src/batchop/fileset2.py, lines 58-63) -/

/-- The `FilterSet.test`: evaluate every filter, expand each result, and AND the
`include_self` components and the `include_children` components. -/
def filterSetTest (st : Stat) (fl : List Filter) (item : Path) : Bool × Bool :=
  let results := fl.map (fun f => expand_result (f.test st item))
  let should_include := results.all (fun r => r.1)
  let should_recurse := results.all (fun r => r.2)
  (should_include, should_recurse)

/-! ### Lazy traversal (src/batchop/fileset2.py, LazyFileSet.iterate)

The directory tree is an inductive value; `iterate` is the explicit-stack
loop of `LazyFileSet.iterate` with the default `IterateBehavior` (the only
one the claims concern).  Python appends children to the end of the list and
pops from the end; here the head of the list is the top of the stack, so a
push prepends the reversed children (same multiset of stack states).
Besides the yielded paths the embedding also records every item popped from
the stack and tested — the `visited` component — so that statements about
what the traversal descends into can be made. -/

/-- A directory tree: named regular files and named directories. -/
inductive FsNode where
  | file (name : String)
  | dir (name : String) (children : List FsNode)
  deriving Repr

mutual

/-- Number of nodes in a tree (for termination). -/
def FsNode.size : FsNode → Nat
  | .file _ => 1
  | .dir _ cs => 1 + sizeList cs

/-- Number of nodes in a forest. -/
def sizeList : List FsNode → Nat
  | [] => 0
  | n :: t => FsNode.size n + sizeList t

end

/-- The name of a node. -/
def FsNode.nodeName : FsNode → String
  | .file nm => nm
  | .dir nm _ => nm

/-- The `Path.is_dir()` for a node of the modelled tree. -/
def FsNode.isDirNode : FsNode → Bool
  | .file _ => false
  | .dir _ _ => true

/-- The `Path.iterdir()` for a node of the modelled tree. -/
def FsNode.childrenOf : FsNode → List FsNode
  | .file _ => []
  | .dir _ cs => cs

/-- Total size of all nodes on the traversal stack. -/
def stackSize : List (Path × FsNode) → Nat
  | [] => 0
  | (_, n) :: t => n.size + stackSize t

theorem stackSize_append (a b : List (Path × FsNode)) :
    stackSize (a ++ b) = stackSize a + stackSize b := by
  induction a with
  | nil => simp [stackSize]
  | cons x t ih =>
    obtain ⟨p, n⟩ := x
    simp [stackSize, ih, Nat.add_assoc]

theorem stackSize_reverse (a : List (Path × FsNode)) :
    stackSize a.reverse = stackSize a := by
  induction a with
  | nil => rfl
  | cons x t ih =>
    obtain ⟨p, n⟩ := x
    simp [stackSize, List.reverse_cons, stackSize_append, ih, Nat.add_comm]

theorem stackSize_map_children (p : Path) (cs : List FsNode) :
    stackSize (cs.map (fun c => (p ++ [c.nodeName], c))) = sizeList cs := by
  induction cs with
  | nil => rfl
  | cons c t ih => simp [stackSize, sizeList, ih]

theorem sizeList_lt_size (n : FsNode) : sizeList n.childrenOf < n.size := by
  cases n with
  | file nm => simp [FsNode.childrenOf, FsNode.size, sizeList]
  | dir nm cs => simp [FsNode.childrenOf, FsNode.size, Nat.lt_succ_self]

/-- The loop of `LazyFileSet.iterate` (default behavior), instrumented:
returns `(visited, yielded)` where `visited` lists every item popped from
the stack and tested, and `yielded` the items the generator yields. -/
def iterate (st : Stat) (fl : List Filter) :
    List (Path × FsNode) → List Path × List Path
  | [] => ([], [])
  | (p, n) :: rest =>
    let r := filterSetTest st fl p
    let stack' :=
      if r.2 && n.isDirNode then
        (n.childrenOf.map (fun c => (p ++ [c.nodeName], c))).reverse ++ rest
      else rest
    let res := iterate st fl stack'
    (p :: res.1, if r.1 then p :: res.2 else res.2)
termination_by stack => stackSize stack
decreasing_by
  simp only [stackSize]
  split
  · rw [stackSize_append, stackSize_reverse, stackSize_map_children]
    have := sizeList_lt_size n
    omega
  · have : 0 < FsNode.size n := by cases n <;> simp [FsNode.size]
    omega

/-- Entry point of the traversal: the stack is seeded with the children of the root (`stack = list(self.root.iterdir())`), each at a single-component
relative path. -/
def lazyResolve (st : Stat) (fl : List Filter) (rootChildren : List FsNode) :
    List Path × List Path :=
  iterate st fl ((rootChildren.map (fun c => ([c.nodeName], c))).reverse)

/-- No component of the path is hidden (starts with a dot). -/
def hiddenFree (l : List String) : Bool :=
  l.all (fun s => !(startsWithDot s))

theorem hiddenFree_append_last (p : Path) (s : String) :
    hiddenFree (p ++ [s]) = (hiddenFree p && !(startsWithDot s)) := by
  simp [hiddenFree]

theorem pathName_append_last (p : Path) (s : String) :
    pathName (p ++ [s]) = s := by
  induction p with
  | nil => rfl
  | cons x t ih =>
    cases t with
    | nil => rfl
    | cons y u => simp [pathName, List.getLastD]

theorem hiddenFree_split {p : Path} (h : p ≠ []) :
    hiddenFree p = (hiddenFree p.dropLast && !(startsWithDot (pathName p))) := by
  induction p with
  | nil => exact absurd rfl h
  | cons x t ih =>
    cases t with
    | nil => simp [hiddenFree, pathName, List.getLastD]
    | cons y u =>
      have hne : y :: u ≠ [] := by simp
      have hnm : pathName (x :: y :: u) = pathName (y :: u) := by
        simp [pathName, List.getLastD]
      have hdl : (x :: y :: u).dropLast = x :: (y :: u).dropLast := by
        simp [List.dropLast_cons_of_ne_nil hne]
      calc hiddenFree (x :: y :: u)
          = (!(startsWithDot x) && hiddenFree (y :: u)) := by simp [hiddenFree]
        _ = (!(startsWithDot x) &&
              (hiddenFree (y :: u).dropLast &&
                !(startsWithDot (pathName (y :: u))))) := by rw [ih hne]
        _ = ((!(startsWithDot x) && hiddenFree (y :: u).dropLast) &&
              !(startsWithDot (pathName (y :: u)))) := by rw [Bool.and_assoc]
        _ = (hiddenFree (x :: y :: u).dropLast &&
              !(startsWithDot (pathName (x :: y :: u)))) := by
            rw [hnm, hdl]
            simp [hiddenFree]

theorem filterSetTest_isNotHidden_snd {st : Stat} {fl : List Filter} {p : Path}
    (hm : Filter.isNotHidden ∈ fl) (h : (filterSetTest st fl p).2 = true) :
    startsWithDot (pathName p) = false := by
  by_contra hcon
  rw [Bool.not_eq_false] at hcon
  simp only [filterSetTest, List.all_eq_true] at h
  have := h _ (List.mem_map_of_mem _ hm)
  simp [Filter.test, hcon, expand_result] at this

theorem filterSetTest_isNotHidden_fst {st : Stat} {fl : List Filter} {p : Path}
    (hm : Filter.isNotHidden ∈ fl) (h : (filterSetTest st fl p).1 = true) :
    startsWithDot (pathName p) = false := by
  by_contra hcon
  rw [Bool.not_eq_false] at hcon
  simp only [filterSetTest, List.all_eq_true] at h
  have := h _ (List.mem_map_of_mem _ hm)
  simp [Filter.test, hcon, expand_result] at this

/-- Main traversal invariant: with `FilterIsNotHidden` among the filters,
every item that the loop ever pops and tests has a hidden-free chain of
proper ancestors, and every yielded item is entirely hidden-free. -/
theorem iterate_hidden_invariant (st : Stat) (fl : List Filter)
    (hm : Filter.isNotHidden ∈ fl) :
    ∀ (N : Nat) (stack : List (Path × FsNode)), stackSize stack ≤ N →
      (∀ x ∈ stack, x.1 ≠ [] ∧ hiddenFree x.1.dropLast = true) →
      (∀ p ∈ (iterate st fl stack).1, p ≠ [] ∧ hiddenFree p.dropLast = true) ∧
      (∀ p ∈ (iterate st fl stack).2, p ≠ [] ∧ hiddenFree p = true) := by
  intro N
  induction N with
  | zero =>
    intro stack hsize hstack
    cases stack with
    | nil => simp [iterate]
    | cons hd tl =>
      obtain ⟨p, n⟩ := hd
      exfalso
      have : 0 < FsNode.size n := by cases n <;> simp [FsNode.size]
      simp [stackSize] at hsize
      omega
  | succ N ih =>
    intro stack hsize hstack
    cases stack with
    | nil => simp [iterate]
    | cons hd tl =>
      obtain ⟨p, n⟩ := hd
      have hhd := hstack (p, n) (by simp)
      simp only at hhd
      -- the new stack after this pop
      set stack' : List (Path × FsNode) :=
        if (filterSetTest st fl p).2 && n.isDirNode then
          (n.childrenOf.map (fun c => (p ++ [c.nodeName], c))).reverse ++ tl
        else tl with hstack'
      have hsize' : stackSize stack' ≤ N := by
        rw [hstack']
        split
        · rw [stackSize_append, stackSize_reverse, stackSize_map_children]
          have := sizeList_lt_size n
          simp [stackSize] at hsize
          omega
        · have : 0 < FsNode.size n := by cases n <;> simp [FsNode.size]
          simp [stackSize] at hsize
          omega
      have hstackinv : ∀ x ∈ stack', x.1 ≠ [] ∧ hiddenFree x.1.dropLast = true := by
        rw [hstack']
        split
        · next hrec =>
          intro x hx
          rcases List.mem_append.mp hx with hx | hx
          · rw [List.mem_reverse, List.mem_map] at hx
            obtain ⟨c, _, rfl⟩ := hx
            refine ⟨by simp, ?_⟩
            rw [List.dropLast_concat]
            have hnothid : startsWithDot (pathName p) = false :=
              filterSetTest_isNotHidden_snd hm (by
                simpa using (Bool.and_eq_true _ _ |>.mp hrec).1)
            rw [hiddenFree_split hhd.1]
            simp [hhd.2, hnothid]
          · exact hstack _ (List.mem_cons_of_mem _ hx)
        · intro x hx
          exact hstack _ (List.mem_cons_of_mem _ hx)
      have hrec := ih stack' hsize' hstackinv
      constructor
      · intro q hq
        rw [show iterate st fl ((p, n) :: tl) =
          (p :: (iterate st fl stack').1,
            if (filterSetTest st fl p).1 then p :: (iterate st fl stack').2
            else (iterate st fl stack').2) from by rw [iterate]] at hq
        simp only [List.mem_cons] at hq
        rcases hq with rfl | hq
        · exact hhd
        · exact hrec.1 q hq
      · intro q hq
        rw [show iterate st fl ((p, n) :: tl) =
          (p :: (iterate st fl stack').1,
            if (filterSetTest st fl p).1 then p :: (iterate st fl stack').2
            else (iterate st fl stack').2) from by rw [iterate]] at hq
        by_cases hinc : (filterSetTest st fl p).1 = true
        · rw [if_pos hinc] at hq
          simp only [List.mem_cons] at hq
          rcases hq with rfl | hq
          · refine ⟨hhd.1, ?_⟩
            have hnothid : startsWithDot (pathName q) = false :=
              filterSetTest_isNotHidden_fst hm hinc
            rw [hiddenFree_split hhd.1]
            simp [hhd.2, hnothid]
          · exact hrec.2 q hq
        · rw [if_neg hinc] at hq
          exact hrec.2 q hq

/-! ### Parser fragments (src/batchop/parsing.py, src/batchop/patterns.py,
src/batchop/common.py)

Python exceptions become an `Except` error type.  An out-of-range list
subscript raises `IndexError`, which is not one of the parser's syntax
errors; the embedding models it with a dedicated constructor. -/

deriving instance DecidableEq for Except

inductive PyErr where
  | syntaxErr (msg : String)
  | syntaxEndOfInput
  | syntaxExpectedToken (expected actual : String)
  | syntaxExtraInput (firstExtra : String)
  | indexError
  deriving DecidableEq, Repr

structure RenameCommand where
  old : String
  new : String
  deriving DecidableEq, Repr

structure MoveCommand where
  filters : List Filter
  destination : String
  deriving DecidableEq, Repr

/-- The `parse_rename_command` (parsing.py, lines 65-70), statement for
statement, keeping Python's left-to-right, short-circuit evaluation of
`len(tokens) != 3 and tokens[1].lower() != "to"` and its `IndexError`
behavior on out-of-range subscripts. -/
def parse_rename_command (tokens : List String) : Except PyErr RenameCommand := do
  let cond ←
    if tokens.length ≠ 3 then
      match tokens[1]? with
      | none => throw PyErr.indexError
      | some t1 => pure (pyLower t1 != "to")
    else
      pure false
  if cond then
    throw (PyErr.syntaxErr "could not parse rename command")
  else
    match tokens[0]?, tokens[2]? with
    | some t0, some t2 => pure ⟨t0, t2⟩
    | _, _ => throw PyErr.indexError

/-- The `parse_move_command` (parsing.py, lines 73-84) after its first line.
The first line, `parse_np_and_preds(tokens, trailing_ok=True)`, produces
the filter list and mutates `tokens`; the embedding takes the results of that call — the produced `filters` and the token list as the subsequent
lines see it — as arguments and translates lines 75-84 statement for
statement (`tokens[3]` appears exactly as in the source). -/
def parse_move_command (filters : List Filter) (tokens : List String) :
    Except PyErr MoveCommand := do
  if tokens.isEmpty then
    throw PyErr.syntaxEndOfInput
  match tokens[0]? with
  | none => throw PyErr.indexError
  | some t0 =>
    if t0 ≠ "to" then
      throw (PyErr.syntaxExpectedToken "to" t0)
    else if tokens.length > 2 then
      match tokens[3]? with
      | none => throw PyErr.indexError
      | some t3 => throw (PyErr.syntaxExtraInput t3)
    else
      match tokens[1]? with
      | none => throw PyErr.indexError
      | some t1 => pure ⟨filters, t1⟩

/-- The `unit_to_multiple` (common.py, lines 31-44). -/
def unit_to_multiple (unit : String) : Option Nat :=
  let u := pyLower unit
  if u == "b" || u == "byte" || u == "bytes" then some 1
  else if u == "kb" || u == "kilobyte" || u == "kilobytes" then some 1000
  else if u == "mb" || u == "megabyte" || u == "megabytes" then some 1000000
  else if u == "gb" || u == "gigabyte" || u == "gigabytes" then some 1000000000
  else if u == "tb" || u == "terabyte" || u == "terabytes" then some 1000000000000
  else none

/-- The reduced `WordMatch` needed here (patterns.py): `SizeUnit` captures
an integer. -/
structure WordMatch where
  captured : Option Nat
  consumed : Bool := true
  negated : Bool := false
  deriving DecidableEq, Repr

/-- The unit alternation of `_size_unit_pattern` (patterns.py, line 119),
in source order. -/
def sizeUnitAlternatives : List String :=
  ["b", "byte", "bytes", "kb", "kilobyte", "kilobytes",
   "mb", "megabyte", "megabytes", "gb", "gigabyte", "gigabytes"]

/-- Recognizer for the anchored regex
`^([0-9]+(?:\.[0-9]+)?)(b|byte|...|gigabytes)$`: returns the integer
digits, the fractional digits (possibly empty) and the unit characters.
Greedy digit runs are equivalent to the regex here because no unit
alternative begins with a digit or a dot. -/
def matchSizeRegex (cs : List Char) : Option (List Char × List Char × List Char) :=
  let ds := cs.takeWhile Char.isDigit
  let rest := cs.dropWhile Char.isDigit
  if ds.isEmpty then none
  else
    match rest with
    | '.' :: rest2 =>
      let fs := rest2.takeWhile Char.isDigit
      let rest3 := rest2.dropWhile Char.isDigit
      if !fs.isEmpty && sizeUnitAlternatives.contains (String.mk rest3) then
        some (ds, fs, rest3)
      else none
    | _ =>
      if sizeUnitAlternatives.contains (String.mk rest) then
        some (ds, [], rest)
      else none

/-- Value of a run of decimal digit characters. -/
def digitsToNat (ds : List Char) : Nat :=
  ds.foldl (fun a c => 10 * a + (c.toNat - 48)) 0

/-- The `SizeUnit.test` (patterns.py, lines 124-140).  Exactly as in the
source, `token_lower` is computed and then never used: the regex — which
only lists lowercase units — is matched against the original `token`.
`int(Decimal(n) * multiple)` truncates toward zero, which for the
nonnegative exact product is floor division by `10 ^ (number of
fractional digits)`. -/
def sizeUnitTest (token : String) : Option WordMatch :=
  let _token_lower := pyLower token
  match matchSizeRegex token.data with
  | none => none
  | some (ds, fs, us) =>
    match unit_to_multiple (String.mk us) with
    | none => none
    | some multiple =>
      let captured := digitsToNat (ds ++ fs) * multiple / 10 ^ fs.length
      some { captured := some captured }

/-! ### Decimal formatting

`UndoManager._make_new_path` builds `f"{invocation_id}___{self.i:0>8}"`:
the decimal digits of `i`, left-padded with zeros to width 8.  The digit
string of a nonnegative integer is modelled from scratch so that its
injectivity can be proved. -/

/-- The character of one decimal digit. -/
def digitChar (d : Nat) : Char :=
  match d with
  | 0 => '0' | 1 => '1' | 2 => '2' | 3 => '3' | 4 => '4'
  | 5 => '5' | 6 => '6' | 7 => '7' | 8 => '8' | _ => '9'

/-- Numeric value of a decimal digit character. -/
def digitVal (c : Char) : Nat :=
  c.toNat - 48

/-- Helper for `natToDigits`, structurally recursive on a fuel bound so
that it evaluates inside the kernel. -/
def natToDigitsAux : Nat → Nat → List Char
  | 0, n => [digitChar n]
  | fuel + 1, n =>
    if n < 10 then [digitChar n]
    else natToDigitsAux fuel (n / 10) ++ [digitChar (n % 10)]

/-- Python `str(i)` for a nonnegative integer: big-endian decimal digits. -/
def natToDigits (n : Nat) : List Char :=
  natToDigitsAux n n

theorem natToDigitsAux_congr : ∀ (n fuel fuel' : Nat), n ≤ fuel → n ≤ fuel' →
    natToDigitsAux fuel n = natToDigitsAux fuel' n := by
  intro n
  induction n using Nat.strong_induction_on with
  | _ n ih =>
    intro fuel fuel' hf hf'
    by_cases h : n < 10
    · cases fuel with
      | zero =>
        cases fuel' with
        | zero => rfl
        | succ f' =>
          interval_cases n
          simp [natToDigitsAux]
      | succ f =>
        cases fuel' with
        | zero =>
          interval_cases n
          simp [natToDigitsAux]
        | succ f' => simp [natToDigitsAux, h]
    · have h10 : 10 ≤ n := by omega
      cases fuel with
      | zero => omega
      | succ f =>
        cases fuel' with
        | zero => omega
        | succ f' =>
          have hdivlt : n / 10 < n := Nat.div_lt_self (by omega) (by omega)
          simp only [natToDigitsAux, if_neg h]
          rw [ih (n / 10) hdivlt f f' (by omega) (by omega)]

/-- The defining recurrence of `natToDigits`. -/
theorem natToDigits_eq (n : Nat) :
    natToDigits n = if n < 10 then [digitChar n]
      else natToDigits (n / 10) ++ [digitChar (n % 10)] := by
  by_cases h : n < 10
  · rw [if_pos h]
    cases n with
    | zero => rfl
    | succ m => simp [natToDigits, natToDigitsAux, h]
  · rw [if_neg h]
    cases hn : n with
    | zero => omega
    | succ m =>
      simp only [natToDigits, natToDigitsAux, if_neg (hn ▸ h)]
      rw [natToDigitsAux_congr ((m + 1) / 10) m ((m + 1) / 10)
        (by omega) (le_refl _)]

/-- Python format spec `0>8`: left-pad with zeros to width 8. -/
def padLeftZeros (w : Nat) (ds : List Char) : List Char :=
  List.replicate (w - ds.length) '0' ++ ds

theorem digitVal_digitChar {d : Nat} (h : d < 10) : digitVal (digitChar d) = d := by
  interval_cases d <;> rfl

theorem digitsToNat_val (n : Nat) :
    (natToDigits n).foldl (fun a c => 10 * a + digitVal c) 0 = n := by
  induction n using Nat.strong_induction_on with
  | _ n ih =>
    by_cases h : n < 10
    · rw [natToDigits_eq, if_pos h]
      simp [List.foldl, digitVal_digitChar h]
    · rw [natToDigits_eq, if_neg h]
      rw [List.foldl_append]
      have hlt : n / 10 < n := Nat.div_lt_self (by omega) (by omega)
      rw [ih _ hlt]
      simp [digitVal_digitChar (Nat.mod_lt n (by omega))]
      omega

theorem natToDigits_injective : Function.Injective natToDigits := by
  intro m n h
  have hm := digitsToNat_val m
  have hn := digitsToNat_val n
  rw [h] at hm
  rw [hm] at hn
  exact hn

theorem natToDigits_ne_nil (n : Nat) : natToDigits n ≠ [] := by
  rw [natToDigits_eq]
  split <;> simp

theorem digitChar_eq_zero_iff {d : Nat} (h : d < 10) :
    (digitChar d = '0') ↔ d = 0 := by
  interval_cases d <;> simp [digitChar]

/-- The leading digit of a positive number is not the zero digit. -/
theorem natToDigits_head_ne_zero {n : Nat} (hn : 0 < n) :
    ∀ c cs, natToDigits n = c :: cs → c ≠ '0' := by
  induction n using Nat.strong_induction_on with
  | _ n ih =>
    intro c cs hc
    by_cases h : n < 10
    · rw [natToDigits_eq, if_pos h] at hc
      simp only [List.cons.injEq] at hc
      rw [← hc.1]
      intro hcon
      rw [digitChar_eq_zero_iff h] at hcon
      omega
    · rw [natToDigits_eq, if_neg h] at hc
      have hne := natToDigits_ne_nil (n / 10)
      obtain ⟨c', cs', hc'⟩ := List.exists_cons_of_ne_nil hne
      rw [hc'] at hc
      simp only [List.cons_append, List.cons.injEq] at hc
      have hdiv : 0 < n / 10 := Nat.div_pos (by omega) (by omega)
      have hlt : n / 10 < n := Nat.div_lt_self (by omega) (by omega)
      rw [← hc.1]
      exact ih _ hlt hdiv c' cs' hc'

theorem dropWhile_replicate_zero (k : Nat) (l : List Char) :
    List.dropWhile (fun c => c == '0') (List.replicate k '0' ++ l) =
      List.dropWhile (fun c => c == '0') l := by
  induction k with
  | zero => simp
  | succ k ih => simp [List.replicate_succ, List.dropWhile, ih]

/-- Stripping leading zeros after padding recovers a canonical form. -/
theorem dropWhile_padLeftZeros (w : Nat) (n : Nat) :
    List.dropWhile (fun c => c == '0') (padLeftZeros w (natToDigits n)) =
      if n = 0 then [] else natToDigits n := by
  rw [padLeftZeros, dropWhile_replicate_zero]
  by_cases hn : n = 0
  · subst hn
    rw [if_pos rfl, show natToDigits 0 = ['0'] from rfl]
    rfl
  · rw [if_neg hn]
    obtain ⟨c, cs, hc⟩ := List.exists_cons_of_ne_nil (natToDigits_ne_nil n)
    have hhd := natToDigits_head_ne_zero (Nat.pos_of_ne_zero hn) c cs hc
    rw [hc, List.dropWhile_cons]
    simp [hhd]

theorem padLeftZeros_natToDigits_injective {w : Nat} :
    Function.Injective (fun n => padLeftZeros w (natToDigits n)) := by
  intro m n h
  simp only at h
  have := congrArg (List.dropWhile (fun c => c == '0')) h
  rw [dropWhile_padLeftZeros, dropWhile_padLeftZeros] at this
  by_cases hm : m = 0 <;> by_cases hn : n = 0
  · omega
  · rw [if_pos hm, if_neg hn] at this
    exact absurd this.symm (natToDigits_ne_nil n)
  · rw [if_neg hm, if_pos hn] at this
    exact absurd this (natToDigits_ne_nil m)
  · rw [if_neg hm, if_neg hn] at this
    exact natToDigits_injective this

/-! ### The undo ledger (src/batchop/db.py) and orchestrator
(src/batchop/batchop2.py)

The sqlite store becomes two in-memory tables.  Ambient effects —
`uuid.uuid4()` and `time.time()` in `create_invocation` — become explicit
arguments.  `require_confirm` is taken as `False` throughout (the claims
speak about confirmed operations) and `dry_run` as `False`. -/

/-- Operation kinds.  In this snapshot db.py declares only `OP_TYPE_DELETE`
and `OP_TYPE_RENAME`, while batchop2.py imports and handles
`OP_TYPE_MOVE` and `OP_TYPE_CREATE` as well.
Modelled from the spec: the `move` and `create` kinds — the spec's
InvocationOp "operation kind (delete / rename / move / create-directory)"
— which db.py in this snapshot is missing. -/
inductive OpType where
  | delete
  | rename
  | move
  | create
  deriving DecidableEq, Repr

structure Invocation where
  invocation_id : String
  context : String
  cmdline : String
  undoable : Bool
  time_invoked_ms : Nat
  deriving DecidableEq, Repr

structure InvocationOp where
  invocation_id : String
  op_type : OpType
  path_before : Path
  path_after : Path
  deriving DecidableEq, Repr

/-- The two tables of the store, plus the context of the connection. -/
structure Database where
  invocations : List Invocation
  ops : List InvocationOp
  context : String
  deriving DecidableEq, Repr

/-- The `Database.create_invocation`; the fresh uuid and the clock reading are
passed in. -/
def Database.create_invocation (db : Database) (invocation_id : String)
    (cmdline : String) (undoable : Bool) (time_invoked_ms : Nat) : Database :=
  { db with invocations := db.invocations ++
      [⟨invocation_id, db.context, cmdline, undoable, time_invoked_ms⟩] }

/-- The `Database.create_invocation_op`. -/
def Database.create_invocation_op (db : Database) (invocation_id : String)
    (op_type : OpType) (path_before path_after : Path) : Database :=
  { db with ops := db.ops ++ [⟨invocation_id, op_type, path_before, path_after⟩] }

/-- The `ORDER BY time_invoked_ms DESC LIMIT 1`: the scan keeping the
strictly-latest invocation seen so far. -/
def maxByTime (l : List Invocation) : Option Invocation :=
  l.foldl (fun acc inv =>
    match acc with
    | none => some inv
    | some b => if inv.time_invoked_ms > b.time_invoked_ms then some inv else some b)
    none

/-- The `Database.get_last_invocation`: the most recent invocation whose
context matches that of the connection, together with its ops. -/
def Database.get_last_invocation (db : Database) :
    Option Invocation × List InvocationOp :=
  match maxByTime (db.invocations.filter (fun inv => inv.context == db.context)) with
  | none => (none, [])
  | some inv =>
    (some inv, db.ops.filter (fun op => op.invocation_id == inv.invocation_id))

/-- The `Database.delete_invocation` with the `ON DELETE CASCADE` of the
`invocation_op` foreign key. -/
def Database.delete_invocation (db : Database) (invocation_id : String) : Database :=
  { db with
    invocations := db.invocations.filter
      (fun inv => !(inv.invocation_id == invocation_id)),
    ops := db.ops.filter (fun op => !(op.invocation_id == invocation_id)) }

/-- The `UndoManager` state: the db connection is threaded separately. -/
structure UndoManager where
  backup_directory : Path
  invocation_id : String
  i : Nat
  deriving DecidableEq, Repr

/-- The name `f"{invocation_id}___{self.i:0>8}"`. -/
def mkOpName (invocation_id : String) (i : Nat) : String :=
  invocation_id ++ "___" ++ String.mk (padLeftZeros 8 (natToDigits i))

/-- The `UndoManager.start`. -/
def UndoManager.start (db : Database) (backup_directory : Path) (cmdline : String)
    (invocation_id : String) (time_invoked_ms : Nat) : UndoManager × Database :=
  (⟨backup_directory, invocation_id, 1⟩,
    db.create_invocation invocation_id cmdline true time_invoked_ms)

/-- The `UndoManager._make_new_path`. -/
def UndoManager.make_new_path (um : UndoManager) : Path × UndoManager :=
  (um.backup_directory ++ [mkOpName um.invocation_id um.i], { um with i := um.i + 1 })

/-- The `UndoManager.add_op`: append one InvocationOp; a missing `path_after`
is freshly generated in the backup staging directory and returned. -/
def UndoManager.add_op (um : UndoManager) (db : Database) (op_type : OpType)
    (path_before : Path) (path_after : Option Path) :
    Path × UndoManager × Database :=
  match path_after with
  | none =>
    let (p, um') := um.make_new_path
    (p, um', db.create_invocation_op um.invocation_id op_type path_before p)
  | some p =>
    (p, um, db.create_invocation_op um.invocation_id op_type path_before p)

/-- Errors raised by the orchestrator. -/
inductive BErr where
  | emptyFileSet
  | pathCollision
  | base (msg : String)
  | osError (msg : String)
  deriving DecidableEq, Repr

/-- Whole-system state: the user tree and the bookkeeping store. -/
structure Sys where
  fs : FS
  db : Database
  deriving DecidableEq, Repr

/-- The `DeleteResult.paths_deleted` is the returned path list; `UndoResult`
mirrors batchop2.py. -/
structure UndoResult where
  original_cmdline : String
  num_ops : Nat
  deriving DecidableEq, Repr

/-- The loop body of `BatchOp2.delete`: for each selected path, log a
delete op (generating the backup path) and `shutil.move` the path there. -/
def deleteLoop (um : UndoManager) (db : Database) (fs : FS) :
    List Path → FS × Database × UndoManager
  | [] => (fs, db, um)
  | p :: rest =>
    let (newPath, um', db') := um.add_op db OpType.delete p none
    deleteLoop um' db' (moveFS p newPath fs) rest

/-- The `BatchOp2.delete` with `require_confirm=False`, `dry_run=False`.
`sel` stands for the resolved file set after `exclude_children()`
(`FilterSet3.resolve` and `exclude_children` are not part of this
snapshot; per the spec they produce the matched subtree roots, so the
selected paths are taken as an argument). -/
def BatchOp2.delete (backupDir : Path) (sel : List Path) (invocation_id : String)
    (time_invoked_ms : Nat) (cmdline : String) (s : Sys) :
    Except BErr (List Path × Sys) :=
  if sel.isEmpty then throw BErr.emptyFileSet
  else
    let (um, db1) := UndoManager.start s.db backupDir cmdline invocation_id
      time_invoked_ms
    let (fs', db', _) := deleteLoop um db1 s.fs sel
    pure (sel, ⟨fs', db'⟩)

/-- The loop shared by rename and move: for each `(old, new)` pair, log an
op carrying both paths and move `old` to `new`. -/
def renameLoop (kind : OpType) (um : UndoManager) (db : Database) (fs : FS) :
    List (Path × Path) → FS × Database × UndoManager
  | [] => (fs, db, um)
  | (old, new) :: rest =>
    let (_, um', db') := um.add_op db kind old (some new)
    renameLoop kind um' db' (moveFS old new fs) rest

/-- Modelled from the spec: `BatchOp2.rename` and `BatchOp2.move` are
missing from this snapshot (its tests call them and `BatchOp2.undo`
replays their ops).  Per spec section 4.6 the orchestrator resolves the
operation to before/after path pairs, fails on an empty set, rejects
duplicate destinations before any mutation, then performs each move while
logging one InvocationOp. -/
def BatchOp2.moveLike (kind : OpType) (pairs : List (Path × Path))
    (invocation_id : String) (time_invoked_ms : Nat) (cmdline : String)
    (s : Sys) : Except BErr (List Path × Sys) :=
  if pairs.isEmpty then throw BErr.emptyFileSet
  else if (pairs.map Prod.snd).Nodup then
    let (um, db1) := UndoManager.start s.db [] cmdline invocation_id
      time_invoked_ms
    let (fs', db', _) := renameLoop kind um db1 s.fs pairs
    pure (pairs.map Prod.fst, ⟨fs', db'⟩)
  else throw BErr.pathCollision

/-- Modelled from the spec: `BatchOp2.rename` (see `BatchOp2.moveLike`). -/
def BatchOp2.rename (pairs : List (Path × Path)) (invocation_id : String)
    (time_invoked_ms : Nat) (cmdline : String) (s : Sys) :
    Except BErr (List Path × Sys) :=
  BatchOp2.moveLike OpType.rename pairs invocation_id time_invoked_ms cmdline s

/-- Modelled from the spec: `BatchOp2.move` (see `BatchOp2.moveLike`). -/
def BatchOp2.move (pairs : List (Path × Path)) (invocation_id : String)
    (time_invoked_ms : Nat) (cmdline : String) (s : Sys) :
    Except BErr (List Path × Sys) :=
  BatchOp2.moveLike OpType.move pairs invocation_id time_invoked_ms cmdline s

/-- The `_sort_undo_ops` key order: Python uses a stable ascending sort with key
`create -> 2`, everything else `-> 1`, as a stable insertion sort. -/
def undoKey (op : InvocationOp) : Nat :=
  match op.op_type with
  | OpType.create => 2
  | _ => 1

/-- Stable insertion into a key-sorted list. -/
def sortInsert (x : InvocationOp) : List InvocationOp → List InvocationOp
  | [] => [x]
  | y :: ys => if undoKey x ≤ undoKey y then x :: y :: ys else y :: sortInsert x ys

/-- The `_sort_undo_ops` (batchop2.py, lines 228-235). -/
def sort_undo_ops (ops : List InvocationOp) : List InvocationOp :=
  ops.foldr sortInsert []

/-- The `BatchOp2._undo_delete`: move the backup copy back if it still
exists. -/
def undo_delete_op (op : InvocationOp) (fs : FS) : FS :=
  if pexists fs op.path_after then moveFS op.path_after op.path_before fs else fs

/-- The `BatchOp2._undo_rename_or_move`. -/
def undo_rename_or_move_op (op : InvocationOp) (fs : FS) : FS :=
  if pexists fs op.path_after then moveFS op.path_after op.path_before fs else fs

/-- The `Path.is_dir()` against the tree: some file lies strictly below. -/
def isDirFS (fs : FS) (p : Path) : Bool :=
  fs.any (fun e => strictUnder p e.1)

/-- The `BatchOp2._undo_create`: remove `path_after` if it still exists —
`rmdir` for a directory, which raises `OSError` when the directory is not
empty (in this files-only model an existing directory always has a file
below it, and an existing empty directory is indistinguishable from an
absent one, so the `exists` guard covers it), `unlink` for a file. -/
def undo_create_op (op : InvocationOp) (fs : FS) : Except BErr FS :=
  if pexists fs op.path_after then
    if isDirFS fs op.path_after then
      throw (BErr.osError "Directory not empty")
    else
      pure (fs.filter (fun e => !(e.1 == op.path_after)))
  else
    pure fs

/-- The replay loop of `BatchOp2.undo` over the sorted ops. -/
def undoLoop : List InvocationOp → FS → Except BErr FS
  | [], fs => pure fs
  | op :: rest, fs =>
    match op.op_type with
    | OpType.delete => undoLoop rest (undo_delete_op op fs)
    | OpType.rename => undoLoop rest (undo_rename_or_move_op op fs)
    | OpType.move => undoLoop rest (undo_rename_or_move_op op fs)
    | OpType.create => do undoLoop rest (← undo_create_op op fs)

/-- The `BatchOp2.undo` with `require_confirm=False` (the interpolated error
messages are fixed strings here). -/
def BatchOp2.undo (s : Sys) : Except BErr (UndoResult × Sys) := do
  let (inv?, invocation_ops) := s.db.get_last_invocation
  match inv? with
  | none => throw (BErr.base "there is no previous command to undo")
  | some invocation =>
    if !invocation.undoable then
      throw (BErr.base "the last command was not undo-able")
    else if invocation_ops.length == 0 then
      throw (BErr.base
        "the last command did not do anything so there is nothing to undo")
    else do
      let sorted := sort_undo_ops invocation_ops
      let fs' ← undoLoop sorted s.fs
      let db' := s.db.delete_invocation invocation.invocation_id
      pure (⟨invocation.cmdline, invocation_ops.length⟩, ⟨fs', db'⟩)

/-! ### Round-trip machinery

A forward run of delete/rename/move performs a sequence of `shutil.move`
operations described by `(before, after)` pairs; the undo replay moves
each pair back, in the same relative order, skipping pairs whose `after`
no longer exists.  Under the disjointness the orchestrator guarantees
(subtree roots only, fresh destinations) this restores the tree. -/

/-- Forward execution of a pair list. -/
def moveList : List (Path × Path) → FS → FS
  | [], fs => fs
  | (p, b) :: t, fs => moveList t (moveFS p b fs)

/-- Undo of one pair (the body of `_undo_delete` / `_undo_rename_or_move`). -/
def undoOne (x : Path × Path) (fs : FS) : FS :=
  if pexists fs x.2 then moveFS x.2 x.1 fs else fs

/-- Undo replay of a pair list, in list order. -/
def undoList : List (Path × Path) → FS → FS
  | [], fs => fs
  | x :: t, fs => undoList t (undoOne x fs)

/-- Disjointness conditions the orchestrator establishes for one
invocation: sources and destinations pairwise unrelated across distinct
ops, each destination unrelated to its own source and absent from the
starting tree. -/
def goodPairs (fs : FS) (l : List (Path × Path)) : Prop :=
  l.Pairwise (fun x y => unrelated x.1 y.1 = true ∧ unrelated x.1 y.2 = true ∧
    unrelated x.2 y.1 = true ∧ unrelated x.2 y.2 = true) ∧
  (∀ x ∈ l, unrelated x.1 x.2 = true) ∧
  (∀ x ∈ l, pexists fs x.2 = false)

/-- After moving `p` to a fresh `b`, `b` exists exactly when `p` did. -/
theorem pexists_moveFS_self {p b : Path} {fs : FS}
    (hfresh : pexists fs b = false) :
    pexists (moveFS p b fs) b = pexists fs p := by
  simp only [pexists, List.any_eq_false] at hfresh
  simp only [pexists, moveFS, List.any_map]
  induction fs with
  | nil => rfl
  | cons e t ih =>
    have he := hfresh e (by simp)
    have ht : ∀ x ∈ t, ¬isUnder b x.1 = true := fun x hx =>
      hfresh x (List.mem_cons_of_mem _ hx)
    simp only [List.any_cons, Function.comp]
    rw [ih ht]
    by_cases hp : isUnder p e.1 = true
    · rw [movePath_of_isUnder b hp, isUnder_append, hp]
    · rw [movePath_of_not_isUnder b (by simpa using hp)]
      simp only [hp, Bool.false_or]
      rw [show isUnder b e.1 = false from by simpa using he]
      simp

/-- Undoing the move just performed restores the tree. -/
theorem undoOne_moveFS_self {p b : Path} {fs : FS}
    (hfresh : pexists fs b = false) :
    undoOne (p, b) (moveFS p b fs) = fs := by
  simp only [undoOne]
  rw [pexists_moveFS_self hfresh]
  by_cases hp : pexists fs p = true
  · rw [if_pos hp]
    exact moveFS_roundtrip hfresh
  · rw [if_neg hp, moveFS_of_not_pexists b (by simpa using hp)]

/-- The `undoOne` of a pair commutes past a move of an unrelated pair. -/
theorem undoOne_moveFS_comm {p b c d : Path} (g : FS)
    (hpc : unrelated p c = true) (_hpd : unrelated p d = true)
    (hbc : unrelated b c = true) (hbd : unrelated b d = true) :
    undoOne (p, b) (moveFS c d g) = moveFS c d (undoOne (p, b) g) := by
  simp only [undoOne]
  rw [pexists_moveFS g hbc hbd]
  by_cases hb : pexists g b = true
  · rw [if_pos hb, if_pos hb]
    exact moveFS_comm g hbc hbd hpc
  · rw [if_neg hb, if_neg hb]

/-- The `undoOne` commutes past the forward run of a list of unrelated pairs. -/
theorem undoOne_moveList_comm {p b : Path} (t : List (Path × Path)) (g : FS)
    (h : ∀ y ∈ t, unrelated p y.1 = true ∧ unrelated p y.2 = true ∧
      unrelated b y.1 = true ∧ unrelated b y.2 = true) :
    undoOne (p, b) (moveList t g) = moveList t (undoOne (p, b) g) := by
  induction t generalizing g with
  | nil => rfl
  | cons y u ih =>
    obtain ⟨c, d⟩ := y
    have hy := h (c, d) (by simp)
    simp only [moveList]
    rw [ih _ (fun z hz => h z (List.mem_cons_of_mem _ hz))]
    rw [undoOne_moveFS_comm g hy.1 hy.2.1 hy.2.2.1 hy.2.2.2]

/-- Main round-trip lemma: replaying the pairs of one invocation in order
restores the starting tree. -/
theorem undoList_moveList {l : List (Path × Path)} {fs : FS}
    (h : goodPairs fs l) : undoList l (moveList l fs) = fs := by
  obtain ⟨hpw, hself, hfresh⟩ := h
  induction l generalizing fs with
  | nil => rfl
  | cons x t ih =>
    obtain ⟨p, b⟩ := x
    rw [List.pairwise_cons] at hpw
    simp only [moveList, undoList]
    rw [undoOne_moveList_comm t _ (fun y hy => hpw.1 y hy)]
    rw [undoOne_moveFS_self (hfresh (p, b) (by simp))]
    exact ih hpw.2 (fun y hy => hself y (List.mem_cons_of_mem _ hy))
      (fun y hy => hfresh y (List.mem_cons_of_mem _ hy))

/-! ### Relating the orchestrator loops to the pair-list semantics -/

theorem isUnder_trans {a b c : Path} (hab : isUnder a b = true)
    (hbc : isUnder b c = true) : isUnder a c = true := by
  rcases (isUnder_iff_append a b).mp hab with ⟨r, rfl⟩
  rcases (isUnder_iff_append (a ++ r) c).mp hbc with ⟨s, rfl⟩
  rw [List.append_assoc]
  exact isUnder_append a (r ++ s)

theorem unrelated_symm {a b : Path} (h : unrelated a b = true) :
    unrelated b a = true := by
  simp only [unrelated, Bool.and_eq_true] at h ⊢
  exact ⟨h.2, h.1⟩

/-- A path unrelated to a directory is unrelated to its children. -/
theorem unrelated_child {p bd : Path} (x : String)
    (h : unrelated p bd = true) : unrelated p (bd ++ [x]) = true := by
  simp only [unrelated, Bool.and_eq_true, Bool.not_eq_true'] at h ⊢
  constructor
  · by_contra hcon
    rw [Bool.not_eq_false] at hcon
    rcases isUnder_comparable hcon (isUnder_append bd [x]) with hc | hc
    · rw [h.1] at hc; exact Bool.false_ne_true hc
    · rw [h.2] at hc; exact Bool.false_ne_true hc
  · by_contra hcon
    rw [Bool.not_eq_false] at hcon
    have := isUnder_trans (isUnder_append bd [x]) hcon
    rw [h.2] at this
    exact Bool.false_ne_true this

/-- Distinct children of the same directory are unrelated. -/
theorem unrelated_siblings {bd : Path} {x y : String} (h : x ≠ y) :
    unrelated (bd ++ [x]) (bd ++ [y]) = true := by
  simp only [unrelated, Bool.and_eq_true, Bool.not_eq_true']
  constructor
  · by_contra hcon
    rw [Bool.not_eq_false] at hcon
    rcases (isUnder_iff_append _ _).mp hcon with ⟨r, hr⟩
    rw [List.append_assoc] at hr
    have := List.append_cancel_left hr
    simp only [List.cons_append, List.nil_append, List.cons.injEq] at this
    exact h this.1.symm
  · by_contra hcon
    rw [Bool.not_eq_false] at hcon
    rcases (isUnder_iff_append _ _).mp hcon with ⟨r, hr⟩
    rw [List.append_assoc] at hr
    have := List.append_cancel_left hr
    simp only [List.cons_append, List.nil_append, List.cons.injEq] at this
    exact h this.1

/-- If nothing of the tree is under `bd`, nothing is under a child of
`bd` either. -/
theorem pexists_child {fs : FS} {bd : Path} (x : String)
    (h : pexists fs bd = false) : pexists fs (bd ++ [x]) = false := by
  simp only [pexists, List.any_eq_false] at h ⊢
  intro e he
  intro hcon
  exact h e he (isUnder_trans (isUnder_append bd [x]) hcon)

theorem mkOpName_inj {invId : String} {i j : Nat}
    (h : mkOpName invId i = mkOpName invId j) : i = j := by
  have hd := congrArg String.data h
  simp only [mkOpName, String.data_append] at hd
  have h2 : (invId.data ++ ['_', '_', '_']) ++ padLeftZeros 8 (natToDigits i) =
      (invId.data ++ ['_', '_', '_']) ++ padLeftZeros 8 (natToDigits j) := by
    simpa [List.append_assoc] using hd
  have hpad := List.append_cancel_left h2
  exact @padLeftZeros_natToDigits_injective 8 i j hpad

/-- The `(path_before, path_after)` pairs that `deleteLoop` generates. -/
def deletePairs (um : UndoManager) : List Path → List (Path × Path)
  | [] => []
  | p :: rest =>
    (p, um.backup_directory ++ [mkOpName um.invocation_id um.i]) ::
      deletePairs { um with i := um.i + 1 } rest

/-- The InvocationOp rows for a pair list. -/
def opsOfPairs (invId : String) (kind : OpType) (l : List (Path × Path)) :
    List InvocationOp :=
  l.map (fun x => ⟨invId, kind, x.1, x.2⟩)

theorem deleteLoop_spec (um : UndoManager) (db : Database) (fs : FS)
    (sel : List Path) :
    deleteLoop um db fs sel =
      (moveList (deletePairs um sel) fs,
       { db with ops := db.ops ++
           opsOfPairs um.invocation_id OpType.delete (deletePairs um sel) },
       { um with i := um.i + sel.length }) := by
  induction sel generalizing um db fs with
  | nil => simp [deleteLoop, deletePairs, opsOfPairs, moveList]
  | cons p rest ih =>
    simp only [deleteLoop, UndoManager.add_op, UndoManager.make_new_path,
      Database.create_invocation_op, deletePairs, opsOfPairs, moveList]
    rw [ih]
    simp only [Prod.mk.injEq]
    refine ⟨trivial, ?_, ?_⟩
    · simp [Database.mk.injEq, opsOfPairs, List.append_assoc]
    · simp only [UndoManager.mk.injEq, eq_self_iff_true, true_and,
        List.length_cons]
      omega

theorem renameLoop_spec (kind : OpType) (um : UndoManager) (db : Database)
    (fs : FS) (pairs : List (Path × Path)) :
    renameLoop kind um db fs pairs =
      (moveList pairs fs,
       { db with ops := db.ops ++ opsOfPairs um.invocation_id kind pairs },
       um) := by
  induction pairs generalizing db fs with
  | nil => simp [renameLoop, opsOfPairs, moveList]
  | cons x rest ih =>
    obtain ⟨old, new⟩ := x
    simp only [renameLoop, UndoManager.add_op, Database.create_invocation_op,
      opsOfPairs, moveList, List.map_cons]
    rw [ih]
    simp [opsOfPairs, List.append_assoc]

theorem sortInsert_of_key_one {x : InvocationOp} (hx : undoKey x = 1)
    (l : List InvocationOp) : sortInsert x l = x :: l := by
  cases l with
  | nil => rfl
  | cons y ys =>
    have : undoKey x ≤ undoKey y := by
      rw [hx]
      cases hy : y.op_type <;> simp [undoKey, hy]
    simp [sortInsert, this]

theorem sort_undo_ops_of_no_create {ops : List InvocationOp}
    (h : ∀ op ∈ ops, op.op_type ≠ OpType.create) :
    sort_undo_ops ops = ops := by
  induction ops with
  | nil => rfl
  | cons x t ih =>
    have hx : undoKey x = 1 := by
      have hxc := h x (by simp)
      cases hk : x.op_type <;> first
        | exact absurd hk hxc
        | simp [undoKey, hk]
    simp only [sort_undo_ops, List.foldr_cons]
    rw [show List.foldr sortInsert [] t = sort_undo_ops t from rfl,
      ih (fun op hop => h op (List.mem_cons_of_mem _ hop)),
      sortInsert_of_key_one hx]

theorem undoLoop_opsOfPairs {kind : OpType} (hk : kind ≠ OpType.create)
    (invId : String) (pairs : List (Path × Path)) (fs : FS) :
    undoLoop (opsOfPairs invId kind pairs) fs = Except.ok (undoList pairs fs) := by
  induction pairs generalizing fs with
  | nil => rfl
  | cons x t ih =>
    obtain ⟨p, b⟩ := x
    cases kind with
    | create => exact absurd rfl hk
    | delete =>
      simp only [opsOfPairs, List.map_cons, undoLoop, undoList]
      rw [show undo_delete_op ⟨invId, OpType.delete, p, b⟩ fs = undoOne (p, b) fs
        from rfl]
      exact ih _
    | rename =>
      simp only [opsOfPairs, List.map_cons, undoLoop, undoList]
      rw [show undo_rename_or_move_op ⟨invId, OpType.rename, p, b⟩ fs =
        undoOne (p, b) fs from rfl]
      exact ih _
    | move =>
      simp only [opsOfPairs, List.map_cons, undoLoop, undoList]
      rw [show undo_rename_or_move_op ⟨invId, OpType.move, p, b⟩ fs =
        undoOne (p, b) fs from rfl]
      exact ih _

theorem maxByTime_mem {l : List Invocation} {b : Invocation}
    (h : maxByTime l = some b) : b ∈ l := by
  have aux : ∀ (l : List Invocation) (acc : Option Invocation),
      l.foldl (fun acc inv =>
        match acc with
        | none => some inv
        | some b => if inv.time_invoked_ms > b.time_invoked_ms then some inv
          else some b) acc = some b → acc = some b ∨ b ∈ l := by
    intro l
    induction l with
    | nil => intro acc h; exact Or.inl h
    | cons x t ih =>
      intro acc h
      simp only [List.foldl_cons] at h
      rcases ih _ h with hacc | hmem
      · cases acc with
        | none =>
          simp only at hacc
          injection hacc with hb
          exact Or.inr (by simp [← hb])
        | some a =>
          simp only at hacc
          split at hacc
          · injection hacc with hb
            exact Or.inr (by simp [← hb])
          · exact Or.inl hacc
      · exact Or.inr (List.mem_cons_of_mem _ hmem)
  rcases aux l none h with hacc | hmem
  · exact absurd hacc (by simp)
  · exact hmem

theorem maxByTime_append_latest {l : List Invocation} {inv : Invocation}
    (h : ∀ x ∈ l, x.time_invoked_ms < inv.time_invoked_ms) :
    maxByTime (l ++ [inv]) = some inv := by
  simp only [maxByTime, List.foldl_append, List.foldl_cons, List.foldl_nil]
  rcases hmax : maxByTime l with _ | b
  · simp only [maxByTime] at hmax
    rw [hmax]
  · simp only [maxByTime] at hmax
    rw [hmax]
    simp only
    rw [if_pos (h b (maxByTime_mem hmax))]

/-- The `get_last_invocation` right after one invocation and its ops were
appended by a fresh orchestrator run. -/
theorem get_last_invocation_spec (db : Database) (inv : Invocation)
    (newOps : List InvocationOp)
    (hctx : inv.context = db.context)
    (htime : ∀ x ∈ db.invocations, x.context = db.context →
      x.time_invoked_ms < inv.time_invoked_ms)
    (hops : ∀ op ∈ db.ops, op.invocation_id ≠ inv.invocation_id)
    (hnew : ∀ op ∈ newOps, op.invocation_id = inv.invocation_id) :
    Database.get_last_invocation
      ⟨db.invocations ++ [inv], db.ops ++ newOps, db.context⟩ =
      (some inv, newOps) := by
  have hfilter : (db.invocations ++ [inv]).filter
      (fun x => x.context == db.context) =
      db.invocations.filter (fun x => x.context == db.context) ++ [inv] := by
    rw [List.filter_append]
    simp [List.filter, hctx]
  simp only [Database.get_last_invocation]
  rw [hfilter, maxByTime_append_latest (by
    intro x hx
    rw [List.mem_filter] at hx
    exact htime x hx.1 (by simpa using hx.2))]
  simp only
  rw [List.filter_append]
  rw [List.filter_eq_nil_iff.mpr (by
    intro op hop
    simpa using hops op hop)]
  rw [List.filter_eq_self.mpr (by
    intro op hop
    simpa using hnew op hop)]
  simp

/-- Every generated pair: its source is a selected path and its backup is
a child of the backup directory with counter at least the starting one. -/
theorem deletePairs_shape (um : UndoManager) (sel : List Path) :
    ∀ x ∈ deletePairs um sel, x.1 ∈ sel ∧ ∃ k, um.i ≤ k ∧
      x.2 = um.backup_directory ++ [mkOpName um.invocation_id k] := by
  induction sel generalizing um with
  | nil => simp [deletePairs]
  | cons p rest ih =>
    intro x hx
    simp only [deletePairs, List.mem_cons] at hx
    rcases hx with rfl | hx
    · exact ⟨by simp, um.i, le_refl _, rfl⟩
    · obtain ⟨hmem, k, hk, hx2⟩ := ih _ x hx
      exact ⟨List.mem_cons_of_mem _ hmem, k, by simp at hk; omega, hx2⟩

/-- The pairs generated for a delete invocation satisfy the round-trip
conditions. -/
theorem deletePairs_good (um : UndoManager) (sel : List Path) (fs : FS)
    (hpw : sel.Pairwise (fun p q => unrelated p q = true))
    (hbd : ∀ p ∈ sel, unrelated p um.backup_directory = true)
    (hfresh : pexists fs um.backup_directory = false) :
    goodPairs fs (deletePairs um sel) := by
  induction sel generalizing um with
  | nil => exact ⟨List.Pairwise.nil, by simp [deletePairs], by simp [deletePairs]⟩
  | cons p rest ih =>
    rw [List.pairwise_cons] at hpw
    have hbdp := hbd p (by simp)
    have ihgood := ih { um with i := um.i + 1 } hpw.2
      (fun q hq => hbd q (List.mem_cons_of_mem _ hq)) hfresh
    refine ⟨?_, ?_, ?_⟩
    · rw [show deletePairs um (p :: rest) =
        (p, um.backup_directory ++ [mkOpName um.invocation_id um.i]) ::
          deletePairs { um with i := um.i + 1 } rest from rfl]
      rw [List.pairwise_cons]
      refine ⟨?_, ihgood.1⟩
      intro y hy
      obtain ⟨hy1, k, hk, hy2⟩ :=
        deletePairs_shape { um with i := um.i + 1 } rest y hy
      simp only at hy1 hy2 hk
      have hq := hpw.1 y.1 hy1
      have hybd := hbd y.1 (List.mem_cons_of_mem _ hy1)
      refine ⟨hq, ?_, ?_, ?_⟩
      · rw [hy2]
        exact unrelated_child _ hbdp
      · exact unrelated_symm (unrelated_child _ hybd)
      · rw [hy2]
        apply unrelated_siblings
        intro hcon
        have := mkOpName_inj hcon
        omega
    · intro x hx
      simp only [deletePairs, List.mem_cons] at hx
      rcases hx with rfl | hx
      · exact unrelated_child _ hbdp
      · exact ihgood.2.1 x hx
    · intro x hx
      simp only [deletePairs, List.mem_cons] at hx
      rcases hx with rfl | hx
      · exact pexists_child _ hfresh
      · exact ihgood.2.2 x hx

theorem deletePairs_length (um : UndoManager) (sel : List Path) :
    (deletePairs um sel).length = sel.length := by
  induction sel generalizing um with
  | nil => rfl
  | cons p rest ih => simp [deletePairs, ih]

theorem opsOfPairs_length (invId : String) (kind : OpType)
    (l : List (Path × Path)) : (opsOfPairs invId kind l).length = l.length := by
  simp [opsOfPairs]

/-- Computation rule for `BatchOp2.undo` on the happy path. -/
theorem undo_spec {s : Sys} {inv : Invocation} {invOps : List InvocationOp}
    {fs' : FS}
    (hlast : s.db.get_last_invocation = (some inv, invOps))
    (hundoable : inv.undoable = true)
    (hne : invOps.length ≠ 0)
    (hloop : undoLoop (sort_undo_ops invOps) s.fs = Except.ok fs') :
    BatchOp2.undo s = Except.ok (⟨inv.cmdline, invOps.length⟩,
      ⟨fs', s.db.delete_invocation inv.invocation_id⟩) := by
  unfold BatchOp2.undo
  rw [hlast]
  simp only [hundoable, Bool.not_true, Bool.false_eq_true, if_false]
  rw [if_neg (by simpa using hne)]
  rw [hloop]
  rfl

/-- Delete followed by undo restores the tree.  Hypotheses: the selected
paths are pairwise non-nested subtree roots (`exclude_children`), the
backup staging directory is disjoint from them and initially empty of
tree entries, the fresh invocation id is unused, and the invocation's
clock reading is later than every earlier one in this context. -/
theorem delete_undo_restores (backupDir : Path) (sel : List Path)
    (invId : String) (t : Nat) (cmdline : String) (s : Sys)
    (hpw : sel.Pairwise (fun p q => unrelated p q = true))
    (hbd : ∀ p ∈ sel, unrelated p backupDir = true)
    (hfresh : pexists s.fs backupDir = false)
    (hts : ∀ x ∈ s.db.invocations, x.context = s.db.context →
      x.time_invoked_ms < t)
    (hops : ∀ op ∈ s.db.ops, op.invocation_id ≠ invId)
    (out : List Path) (s1 : Sys)
    (hok : BatchOp2.delete backupDir sel invId t cmdline s =
      Except.ok (out, s1)) :
    BatchOp2.undo s1 = Except.ok (⟨cmdline, sel.length⟩,
      ⟨s.fs, s1.db.delete_invocation invId⟩) := by
  -- unfold the forward run
  have hne : sel.isEmpty = false := by
    by_contra hcon
    rw [Bool.not_eq_false] at hcon
    simp [BatchOp2.delete, hcon, throw, throwThe, MonadExcept.throw] at hok
  set um0 : UndoManager := ⟨backupDir, invId, 1⟩ with hum0
  set inv : Invocation := ⟨invId, s.db.context, cmdline, true, t⟩ with hinv
  set pairs := deletePairs um0 sel with hpairs
  set newOps := opsOfPairs invId OpType.delete pairs with hnewOps
  have hloop := deleteLoop_spec um0
    (s.db.create_invocation invId cmdline true t) s.fs sel
  have hs1 : s1 = ⟨moveList pairs s.fs,
      ⟨s.db.invocations ++ [inv], s.db.ops ++ newOps, s.db.context⟩⟩ := by
    simp only [BatchOp2.delete, hne, Bool.false_eq_true, if_false,
      UndoManager.start] at hok
    rw [hloop] at hok
    simp only [Database.create_invocation, pure, Except.pure] at hok
    injection hok with hok'
    injection hok' with h1 h2
    rw [← h2]
  -- the ledger lookup finds exactly this invocation and its ops
  have hlast : Database.get_last_invocation
      ⟨s.db.invocations ++ [inv], s.db.ops ++ newOps, s.db.context⟩ =
      (some inv, newOps) := by
    have := get_last_invocation_spec s.db inv newOps rfl hts
      (by simpa using hops)
      (by intro op hop
          simp only [hnewOps, opsOfPairs, List.mem_map] at hop
          obtain ⟨x, _, rfl⟩ := hop
          rfl)
    simpa using this
  -- the replay
  have hlen : newOps.length = sel.length := by
    rw [hnewOps, opsOfPairs_length, hpairs, deletePairs_length]
  have hselne : sel ≠ [] := by
    cases sel <;> simp_all [List.isEmpty]
  have hlenne : newOps.length ≠ 0 := by
    rw [hlen]
    intro hcon
    exact hselne (List.length_eq_zero.mp hcon)
  have hnocreate : ∀ op ∈ newOps, op.op_type ≠ OpType.create := by
    intro op hop
    simp only [hnewOps, opsOfPairs, List.mem_map] at hop
    obtain ⟨x, _, rfl⟩ := hop
    simp
  have hgood : goodPairs s.fs pairs := by
    rw [hpairs]
    exact deletePairs_good um0 sel s.fs hpw hbd hfresh
  have hreplay : undoLoop newOps (moveList pairs s.fs) = Except.ok s.fs := by
    rw [hnewOps, undoLoop_opsOfPairs (by simp) invId pairs]
    rw [undoList_moveList hgood]
  rw [hs1, ← hlen]
  exact @undo_spec
    ⟨moveList pairs s.fs,
      ⟨s.db.invocations ++ [inv], s.db.ops ++ newOps, s.db.context⟩⟩
    inv newOps s.fs hlast rfl hlenne
    (by rw [sort_undo_ops_of_no_create hnocreate]; exact hreplay)

/-- Rename or move followed by undo restores the tree.  `hgood` is the
disjointness the orchestrator establishes (subtree roots only, fresh
destinations, no nesting between the moved items). -/
theorem moveLike_undo_restores (kind : OpType) (hk : kind ≠ OpType.create)
    (pairs : List (Path × Path)) (invId : String) (t : Nat) (cmdline : String)
    (s : Sys)
    (hgood : goodPairs s.fs pairs)
    (hts : ∀ x ∈ s.db.invocations, x.context = s.db.context →
      x.time_invoked_ms < t)
    (hops : ∀ op ∈ s.db.ops, op.invocation_id ≠ invId)
    (out : List Path) (s1 : Sys)
    (hok : BatchOp2.moveLike kind pairs invId t cmdline s =
      Except.ok (out, s1)) :
    BatchOp2.undo s1 = Except.ok (⟨cmdline, pairs.length⟩,
      ⟨s.fs, s1.db.delete_invocation invId⟩) := by
  have hne : pairs.isEmpty = false := by
    by_contra hcon
    rw [Bool.not_eq_false] at hcon
    simp [BatchOp2.moveLike, hcon, throw, throwThe, MonadExcept.throw] at hok
  have hnodup : (pairs.map Prod.snd).Nodup := by
    by_contra hcon
    simp [BatchOp2.moveLike, hne, hcon, throw, throwThe, MonadExcept.throw] at hok
  set um0 : UndoManager := ⟨[], invId, 1⟩ with hum0
  set inv : Invocation := ⟨invId, s.db.context, cmdline, true, t⟩ with hinv
  set newOps := opsOfPairs invId kind pairs with hnewOps
  have hloop := renameLoop_spec kind um0
    (s.db.create_invocation invId cmdline true t) s.fs pairs
  have hs1 : s1 = ⟨moveList pairs s.fs,
      ⟨s.db.invocations ++ [inv], s.db.ops ++ newOps, s.db.context⟩⟩ := by
    simp only [BatchOp2.moveLike, hne, Bool.false_eq_true, if_false,
      UndoManager.start, if_pos hnodup] at hok
    rw [hloop] at hok
    simp only [Database.create_invocation, pure, Except.pure] at hok
    injection hok with hok'
    injection hok' with h1 h2
    rw [← h2]
  have hlast : Database.get_last_invocation
      ⟨s.db.invocations ++ [inv], s.db.ops ++ newOps, s.db.context⟩ =
      (some inv, newOps) := by
    have := get_last_invocation_spec s.db inv newOps rfl hts
      (by simpa using hops)
      (by intro op hop
          simp only [hnewOps, opsOfPairs, List.mem_map] at hop
          obtain ⟨x, _, rfl⟩ := hop
          rfl)
    simpa using this
  have hpairsne : pairs ≠ [] := by
    cases pairs <;> simp_all [List.isEmpty]
  have hlenne : newOps.length ≠ 0 := by
    rw [hnewOps, opsOfPairs_length]
    intro hcon
    exact hpairsne (List.length_eq_zero.mp hcon)
  have hnocreate : ∀ op ∈ newOps, op.op_type ≠ OpType.create := by
    intro op hop
    simp only [hnewOps, opsOfPairs, List.mem_map] at hop
    obtain ⟨x, _, rfl⟩ := hop
    exact hk
  have hreplay : undoLoop newOps (moveList pairs s.fs) = Except.ok s.fs := by
    rw [hnewOps, undoLoop_opsOfPairs hk invId pairs]
    rw [undoList_moveList hgood]
  have hlen : newOps.length = pairs.length := by
    rw [hnewOps, opsOfPairs_length]
  rw [hs1, ← hlen]
  exact @undo_spec
    ⟨moveList pairs s.fs,
      ⟨s.db.invocations ++ [inv], s.db.ops ++ newOps, s.db.context⟩⟩
    inv newOps s.fs hlast rfl hlenne
    (by rw [sort_undo_ops_of_no_create hnocreate]; exact hreplay)

/-! ### Auxiliary facts for the claim theorems -/

theorem pathName_mem {p : Path} (h : p ≠ []) : pathName p ∈ p := by
  induction p with
  | nil => exact absurd rfl h
  | cons x t ih =>
    cases t with
    | nil => simp [pathName, List.getLastD]
    | cons y u =>
      have hname : pathName (x :: y :: u) = pathName (y :: u) := by
        simp [pathName, List.getLastD]
      rw [hname]
      exact List.mem_cons_of_mem _ (ih (by simp))

/-- Generic negation sends a tuple result to the same tuple with the
inclusion flipped and the recursion component untouched. -/
theorem test_negated (st : Stat) (g : Filter) (p : Path) (i r : Bool)
    (h : Filter.test st g p = Result.pair i r) :
    Filter.test st (Filter.negated g) p = Result.pair (!i) r := by
  rw [show Filter.test st (Filter.negated g) p =
    (match Filter.test st g p with
     | Result.pair a c => Result.pair (!a) c
     | Result.bool b => Result.bool (!b)) from rfl, h]

/-- A stat oracle for witnesses: nothing is a file or a directory. -/
def trivialStat : Stat :=
  ⟨fun _ => false, fun _ => false, fun _ => 0⟩

/-! ### Claim theorems -/

/-- C3: `FilterSet.test` computes `should_include` as the logical AND of
the include-self component of every filter's expanded result and
`should_recurse` as the logical AND of the recurse components, a plain
boolean counting as recurse-true; hence one filter returning
recurse-false forces no recursion regardless of the other filters. -/
theorem claim_C3 : ∀ (st : Stat) (fl : List Filter) (p : Path),
    filterSetTest st fl p =
      (fl.all (fun f => (expand_result (f.test st p)).1),
       fl.all (fun f => (expand_result (f.test st p)).2)) ∧
    (∀ b, expand_result (Result.bool b) = (b, true)) ∧
    (∀ f ∈ fl, (expand_result (f.test st p)).2 = false →
      (filterSetTest st fl p).2 = false) := by
  intro st fl p
  refine ⟨?_, fun b => rfl, ?_⟩
  · have hmap : ∀ (g : Bool × Bool → Bool),
        (fl.map (fun f => expand_result (f.test st p))).all g =
        fl.all (fun f => g (expand_result (f.test st p))) := by
      intro g
      induction fl with
      | nil => rfl
      | cons a t ih => simp [ih]
    simp only [filterSetTest]
    rw [hmap, hmap]
  · intro f hf hfalse
    simp only [filterSetTest]
    rw [List.all_eq_false]
    exact ⟨expand_result (f.test st p), List.mem_map_of_mem _ hf, by simp [hfalse]⟩

/-- C3 witness: with the not-hidden filter present and a hidden item, the
recurse component of the conjunction is false. -/
theorem claim_C3_witness :
    (Filter.isNotHidden ∈ [Filter.isNotHidden, Filter.filterTrue] ∧
      (expand_result (Filter.isNotHidden.test trivialStat [".h"])).2 = false) ∧
    (filterSetTest trivialStat [Filter.isNotHidden, Filter.filterTrue]
      [".h"]).2 = false :=
  ⟨by decide,
    (claim_C3 trivialStat [Filter.isNotHidden, Filter.filterTrue] [".h"]).2.2
      Filter.isNotHidden (by decide) (by decide)⟩

/-- C4 (amended): the specialized negations satisfy
`F.negate().test(p) == not F.test(p)` on the paths where `F.test(p)` is
`False` (on paths where it is `True` the negated filter may return `True`
or a tuple, so the equation fails there — see the counterexample); and
negation of a tuple-returning filter preserves the recursion component
unchanged. -/
theorem claim_C4 : ∀ (st : Stat) (p : Path),
    (∀ x : Path, Filter.test st (Filter.isInPath x) p = Result.bool false →
      Filter.test st ((Filter.isInPath x).negate) p = Result.bool true) ∧
    (Filter.test st Filter.isHidden p = Result.bool false →
      Filter.test st (Filter.isHidden.negate) p = Result.bool true) ∧
    (∀ (f : Filter) (i r : Bool), Filter.test st f p = Result.pair i r →
      Filter.test st f.negate p = Result.pair (!i) r) := by
  intro st p
  refine ⟨?_, ?_, ?_⟩
  · intro x h
    simp only [Filter.test, Result.bool.injEq] at h
    simp [Filter.negate, Filter.test, h]
  · intro h
    simp only [Filter.test, Result.bool.injEq] at h
    have hname : startsWithDot (pathName p) = false := by
      by_cases hp : p = []
      · subst hp
        rfl
      · rw [List.any_eq_false] at h
        have := h _ (pathName_mem hp)
        simpa using this
    simp [Filter.negate, Filter.test, hname]
  · intro f i r h
    cases f <;> first
      | exact test_negated _ _ _ _ _ h
      | simp [Filter.test] at h

/-- C4 witness: instance of the amended claim at a concrete path. -/
theorem claim_C4_witness :
    (Filter.test trivialStat Filter.isHidden ["a"] = Result.bool false ∧
      Filter.test trivialStat Filter.isNotHidden [".h"] =
        Result.pair false false) ∧
    (Filter.test trivialStat (Filter.isHidden.negate) ["a"] =
      Result.bool true ∧
     Filter.test trivialStat (Filter.isNotHidden.negate) [".h"] =
      Result.pair true false) :=
  ⟨by decide,
    (claim_C4 trivialStat ["a"]).2.1 (by decide),
    (claim_C4 trivialStat [".h"]).2.2 Filter.isNotHidden false false (by decide)⟩

/-- C4 counterexample: for `F = FilterIsHidden` at the path `.h/c` the
un-negated test returns the plain boolean `True`, yet
`F.negate().test(p)` is the plain boolean `True` as well, not
`not F.test(p) = False` — the negation symmetry fails as stated. -/
theorem claim_C4_counterexample :
    Filter.test trivialStat Filter.isHidden [".h", "c"] = Result.bool true ∧
    Filter.test trivialStat (Filter.isHidden.negate) [".h", "c"] =
      Result.bool true ∧
    Filter.test trivialStat (Filter.isHidden.negate) [".h", "c"] ≠
      Result.bool (!true) := by
  decide

/-- C5 (code bug): `parse_rename_command` uses `and` where the grammar
requires `or`, so the token list `old x new` — three tokens whose middle
token is not `to` — is accepted and silently parsed as
`RenameCommand("old", "new")` instead of raising a syntax error. -/
theorem claim_C5 :
    parse_rename_command ["old", "x", "new"] =
      Except.ok ⟨"old", "new"⟩ := by
  decide

/-- C6 (code bug): after `to` and the destination, an extra-token tail
raises `SyntaxExtraInput(tokens[3])`.  `tokens[3]` is the second extra
token, not the first: with exactly one extra token the subscript raises
`IndexError`, and with two the error names the second one. -/
theorem claim_C6 :
    parse_move_command [] ["to", "dest", "extra"] =
      Except.error PyErr.indexError ∧
    parse_move_command [] ["to", "dest", "x", "y"] =
      Except.error (PyErr.syntaxExtraInput "y") := by
  decide

/-- C7 (code bug): `SizeUnit.test` computes `token_lower` but matches the
lowercase-only regex against the original token, so the uppercase-unit
token `10MB` does not match, while `10mb` matches and captures
`10 * 1_000_000`. -/
theorem claim_C7 :
    sizeUnitTest "10MB" = none ∧
    sizeUnitTest "10mb" =
      some { captured := some 10000000, consumed := true, negated := false } := by
  decide

/-- C10: each of the four size-comparison filters evaluates
`p.is_file() and <comparison>`, which is the plain boolean `False`
whenever `p` is not a regular file, whatever the byte-count threshold. -/
theorem claim_C10 : ∀ (st : Stat) (p : Path) (n : Nat),
    st.isFile p = false →
      Filter.test st (Filter.sizeGreater n) p = Result.bool false ∧
      Filter.test st (Filter.sizeGreaterEqual n) p = Result.bool false ∧
      Filter.test st (Filter.sizeLess n) p = Result.bool false ∧
      Filter.test st (Filter.sizeLessEqual n) p = Result.bool false := by
  intro st p n h
  exact ⟨by simp [Filter.test, h], by simp [Filter.test, h],
    by simp [Filter.test, h], by simp [Filter.test, h]⟩

/-- C10 witness: a directory-like path under an oracle where it is not a
regular file, with the threshold 0 (the `<= 0 bytes` case). -/
theorem claim_C10_witness :
    trivialStat.isFile ["somedir"] = false ∧
    (Filter.test trivialStat (Filter.sizeGreater 0) ["somedir"] =
        Result.bool false ∧
      Filter.test trivialStat (Filter.sizeGreaterEqual 0) ["somedir"] =
        Result.bool false ∧
      Filter.test trivialStat (Filter.sizeLess 0) ["somedir"] =
        Result.bool false ∧
      Filter.test trivialStat (Filter.sizeLessEqual 0) ["somedir"] =
        Result.bool false) :=
  ⟨by decide, claim_C10 trivialStat ["somedir"] 0 (by decide)⟩

theorem strictUnder_iff (hd p : Path) :
    strictUnder hd p = true ↔ ∃ r, r ≠ [] ∧ p = hd ++ r := by
  simp only [strictUnder, Bool.and_eq_true, Bool.not_eq_true', beq_eq_false_iff_ne,
    ne_eq, isUnder_iff_append]
  constructor
  · rintro ⟨⟨r, rfl⟩, hne⟩
    refine ⟨r, ?_, rfl⟩
    intro hcon
    subst hcon
    simp at hne
  · rintro ⟨r, hr, rfl⟩
    exact ⟨⟨r, rfl⟩, by simpa using hr⟩

theorem startsWithDot_pathName_ne_nil {hd : Path}
    (h : startsWithDot (pathName hd) = true) : hd ≠ [] := by
  intro hcon
  subst hcon
  simp [pathName, startsWithDot] at h

theorem pathName_mem_dropLast_of_strictUnder {hd p : Path} (hne : hd ≠ [])
    (h : strictUnder hd p = true) : pathName hd ∈ p.dropLast := by
  rcases (strictUnder_iff hd p).mp h with ⟨r, hr, rfl⟩
  rw [List.dropLast_append_of_ne_nil _ hr]
  exact List.mem_append_left _ (pathName_mem hne)

theorem pathName_mem_of_strictUnder {hd p : Path} (hne : hd ≠ [])
    (h : strictUnder hd p = true) : pathName hd ∈ p := by
  rcases (strictUnder_iff hd p).mp h with ⟨r, _, rfl⟩
  exact List.mem_append_left _ (pathName_mem hne)

/-- C2: with the default is-not-hidden filter among the filters, the
traversal never pops (and hence never tests or pushes descendants of) any
path strictly inside a hidden directory — the `visited` component — and
yields no such path either: the hidden directory is pruned, not merely
excluded while still being recursed into. -/
theorem claim_C2 : ∀ (st : Stat) (fl : List Filter)
    (rootChildren : List FsNode),
    Filter.isNotHidden ∈ fl →
    ∀ hd : Path, startsWithDot (pathName hd) = true →
      ∀ p : Path, strictUnder hd p = true →
        p ∉ (lazyResolve st fl rootChildren).1 ∧
        p ∉ (lazyResolve st fl rootChildren).2 := by
  intro st fl roots hm hd hhid p hstrict
  have hdne : hd ≠ [] := startsWithDot_pathName_ne_nil hhid
  set stack0 := (roots.map (fun c => (([c.nodeName] : Path), c))).reverse
    with hstack0
  have hinit : ∀ x ∈ stack0, x.1 ≠ [] ∧ hiddenFree x.1.dropLast = true := by
    intro x hx
    rw [hstack0, List.mem_reverse, List.mem_map] at hx
    obtain ⟨c, _, rfl⟩ := hx
    exact ⟨by simp, rfl⟩
  have hinv := iterate_hidden_invariant st fl hm (stackSize stack0) stack0
    (le_refl _) hinit
  constructor
  · intro hp
    have hvp := hinv.1 p hp
    have hmem := pathName_mem_dropLast_of_strictUnder hdne hstrict
    have hall := hvp.2
    rw [hiddenFree, List.all_eq_true] at hall
    have := hall _ hmem
    rw [hhid] at this
    simp at this
  · intro hp
    have hvp := hinv.2 p hp
    have hmem := pathName_mem_of_strictUnder hdne hstrict
    have hall := hvp.2
    rw [hiddenFree, List.all_eq_true] at hall
    have := hall _ hmem
    rw [hhid] at this
    simp at this

/-- C2 witness: a hidden directory with a non-hidden file inside it; the
file is neither tested nor yielded. -/
theorem claim_C2_witness :
    (Filter.isNotHidden ∈ [Filter.isNotHidden] ∧
      startsWithDot (pathName [".hid"]) = true ∧
      strictUnder [".hid"] [".hid", "inner"] = true) ∧
    ([".hid", "inner"] ∉ (lazyResolve trivialStat [Filter.isNotHidden]
        [FsNode.dir ".hid" [FsNode.file "inner"], FsNode.file "top"]).1 ∧
     [".hid", "inner"] ∉ (lazyResolve trivialStat [Filter.isNotHidden]
        [FsNode.dir ".hid" [FsNode.file "inner"], FsNode.file "top"]).2) :=
  ⟨by decide,
    claim_C2 trivialStat [Filter.isNotHidden]
      [FsNode.dir ".hid" [FsNode.file "inner"], FsNode.file "top"]
      (by decide) [".hid"] (by decide) [".hid", "inner"] (by decide)⟩

/-- C9: `add_op` with omitted `path_after` appends exactly one
InvocationOp row `(kind, path_before, generated path)` for any of the
four op kinds, returns the generated path
`backup_directory/{invocation_id}___{i:0>8}`, and advances the
per-invocation sequence counter; with `path_after` given it appends that
row and returns `path_after`; generated names for distinct sequence
numbers are distinct, so successive generated paths are fresh within the
invocation. -/
theorem claim_C9 : ∀ (um : UndoManager) (db : Database) (kind : OpType)
    (pb : Path),
    ((um.add_op db kind pb none).1 =
        um.backup_directory ++ [mkOpName um.invocation_id um.i] ∧
      (um.add_op db kind pb none).2.1 = { um with i := um.i + 1 } ∧
      (um.add_op db kind pb none).2.2 =
        { db with ops := db.ops ++ [⟨um.invocation_id, kind, pb,
          um.backup_directory ++ [mkOpName um.invocation_id um.i]⟩] }) ∧
    (∀ pa : Path, (um.add_op db kind pb (some pa)).1 = pa ∧
      (um.add_op db kind pb (some pa)).2.1 = um ∧
      (um.add_op db kind pb (some pa)).2.2 =
        { db with ops := db.ops ++ [⟨um.invocation_id, kind, pb, pa⟩] }) ∧
    (∀ j k : Nat, j ≠ k →
      mkOpName um.invocation_id j ≠ mkOpName um.invocation_id k) := by
  intro um db kind pb
  refine ⟨⟨rfl, rfl, rfl⟩, fun pa => ⟨rfl, rfl, rfl⟩, ?_⟩
  intro j k hjk hcon
  exact hjk (mkOpName_inj hcon)

/-- C9 witness: two successive sequence numbers generate distinct backup
names. -/
theorem claim_C9_witness :
    ((1 : Nat) ≠ 2) ∧ mkOpName "id0" 1 ≠ mkOpName "id0" 2 :=
  ⟨by decide,
    (claim_C9 ⟨["bk"], "id0", 1⟩ ⟨[], [], "python"⟩ OpType.delete
      ["p"]).2.2 1 2 (by decide)⟩

/-- The three precondition checks of `BatchOp2.undo`: no last invocation
for the context, last invocation marked non-undoable, or zero ops. -/
def undoPrecondFail (db : Database) : Bool :=
  match db.get_last_invocation with
  | (none, _) => true
  | (some inv, invOps) => !inv.undoable || invOps.isEmpty

/-- Replay errors are `OSError`s (from `rmdir` on a non-empty directory),
never the `exceptions.Base` messages of the precondition checks. -/
theorem undoLoop_error_osError : ∀ (ops : List InvocationOp) (fs : FS)
    (e : BErr), undoLoop ops fs = Except.error e → ∃ msg, e = BErr.osError msg := by
  intro ops
  induction ops with
  | nil =>
    intro fs e h
    simp [undoLoop, pure, Except.pure] at h
  | cons op rest ih =>
    intro fs e h
    rw [undoLoop] at h
    rcases hop : op.op_type with _ | _ | _ | _ <;> rw [hop] at h
    · exact ih _ e h
    · exact ih _ e h
    · exact ih _ e h
    · simp only [undo_create_op] at h
      by_cases hex : pexists fs op.path_after = true
      · rw [if_pos hex] at h
        by_cases hdir : isDirFS fs op.path_after = true
        · rw [if_pos hdir] at h
          simp only [throw, throwThe, MonadExcept.throw, Except.bind] at h
          injection h with h1
          exact ⟨"Directory not empty", h1.symm⟩
        · rw [if_neg hdir] at h
          simp only [pure, Except.pure, Except.bind] at h
          exact ih _ e h
      · rw [if_neg hex] at h
        simp only [pure, Except.pure, Except.bind] at h
        exact ih _ e h

/-- Computation rules for the three precondition errors of `undo`. -/
theorem undo_none {s : Sys} {invOps : List InvocationOp}
    (hga : s.db.get_last_invocation = (none, invOps)) :
    BatchOp2.undo s =
      Except.error (BErr.base "there is no previous command to undo") := by
  unfold BatchOp2.undo
  rw [hga]
  rfl

theorem undo_not_undoable {s : Sys} {inv : Invocation}
    {invOps : List InvocationOp}
    (hga : s.db.get_last_invocation = (some inv, invOps))
    (hu : inv.undoable = false) :
    BatchOp2.undo s =
      Except.error (BErr.base "the last command was not undo-able") := by
  unfold BatchOp2.undo
  rw [hga]
  simp only [hu]
  rfl

theorem undo_zero_ops {s : Sys} {inv : Invocation}
    {invOps : List InvocationOp}
    (hga : s.db.get_last_invocation = (some inv, invOps))
    (hu : inv.undoable = true) (hlen : invOps.length = 0) :
    BatchOp2.undo s = Except.error (BErr.base
      "the last command did not do anything so there is nothing to undo") := by
  unfold BatchOp2.undo
  rw [hga]
  simp only [hu, hlen]
  rfl

theorem undo_proceeds {s : Sys} {inv : Invocation}
    {invOps : List InvocationOp}
    (hga : s.db.get_last_invocation = (some inv, invOps))
    (hu : inv.undoable = true) (hlen : invOps.length ≠ 0) :
    BatchOp2.undo s = Except.bind (undoLoop (sort_undo_ops invOps) s.fs)
      (fun fs' => Except.ok (⟨inv.cmdline, invOps.length⟩,
        ⟨fs', s.db.delete_invocation inv.invocation_id⟩)) := by
  unfold BatchOp2.undo
  rw [hga]
  simp only [hu, Bool.not_true, Bool.false_eq_true, if_false]
  rw [if_neg (by simpa using hlen)]
  rfl

/-- C8 (amended): `undo` raises one of its three precondition errors
(`exceptions.Base`) exactly when there is no last invocation for the
context, it is non-undoable, or it has zero ops; when none of these hold
(confirmation given), it replays the sorted ops and — provided the replay
itself does not fail — returns an `UndoResult` and deletes the
invocation.  Replay can still fail with an `OSError` (undoing a
create-directory op whose directory is non-empty), so success is not
unconditional; see the counterexample. -/
theorem claim_C8 : ∀ s : Sys,
    ((∃ msg, BatchOp2.undo s = Except.error (BErr.base msg)) ↔
      undoPrecondFail s.db = true) ∧
    (undoPrecondFail s.db = false →
      ∀ inv, (s.db.get_last_invocation).1 = some inv →
      ∀ fs', undoLoop (sort_undo_ops (s.db.get_last_invocation).2) s.fs =
          Except.ok fs' →
        BatchOp2.undo s = Except.ok
          (⟨inv.cmdline, (s.db.get_last_invocation).2.length⟩,
           ⟨fs', s.db.delete_invocation inv.invocation_id⟩)) := by
  intro s
  rcases hga : s.db.get_last_invocation with ⟨inv?, invOps⟩
  constructor
  · cases inv? with
    | none =>
      refine ⟨fun _ => ?_, fun _ => ⟨_, undo_none hga⟩⟩
      simp [undoPrecondFail, hga]
    | some inv =>
      by_cases hu : inv.undoable = true
      · by_cases hlen : invOps.length = 0
        · have hemp : invOps.isEmpty = true := by
            cases invOps with
            | nil => rfl
            | cons a t => simp at hlen
          refine ⟨fun _ => ?_, fun _ => ⟨_, undo_zero_ops hga hu hlen⟩⟩
          simp [undoPrecondFail, hga, hemp]
        · constructor
          · rintro ⟨msg, hmsg⟩
            exfalso
            rw [undo_proceeds hga hu hlen] at hmsg
            rcases hres : undoLoop (sort_undo_ops invOps) s.fs with e | fs'
            · rw [hres] at hmsg
              simp only [Except.bind] at hmsg
              injection hmsg with h1
              obtain ⟨m, hm⟩ := undoLoop_error_osError _ _ _ hres
              rw [hm] at h1
              exact BErr.noConfusion h1.symm
            · rw [hres] at hmsg
              simp only [Except.bind] at hmsg
              exact Except.noConfusion hmsg
          · intro hfail
            exfalso
            simp only [undoPrecondFail, hga, hu, Bool.not_true,
              Bool.false_or] at hfail
            cases invOps with
            | nil => exact hlen rfl
            | cons a t => simp [List.isEmpty] at hfail
      · have hu' : inv.undoable = false := by simpa using hu
        refine ⟨fun _ => ?_, fun _ => ⟨_, undo_not_undoable hga hu'⟩⟩
        simp [undoPrecondFail, hga, hu']
  · intro hfail inv hinv fs' hloop
    have hinv' : inv? = some inv := hinv
    subst hinv'
    have hloop' : undoLoop (sort_undo_ops invOps) s.fs = Except.ok fs' := hloop
    simp only [undoPrecondFail, hga] at hfail
    rw [Bool.or_eq_false_iff] at hfail
    have hu : inv.undoable = true := by
      have h1 := hfail.1
      simpa using h1
    have hlen : invOps.length ≠ 0 := by
      have h2 := hfail.2
      cases invOps with
      | nil => simp [List.isEmpty] at h2
      | cons a t => simp
    exact undo_spec hga hu hlen hloop'

/-- A system whose last invocation is undoable with one delete op whose
backup still exists, for the C8 witness. -/
def undoOkSys : Sys :=
  ⟨[(["bk1"], [9])],
   ⟨[⟨"i2", "python", "rm f", true, 3⟩],
    [⟨"i2", OpType.delete, ["f"], ["bk1"]⟩], "python"⟩⟩

/-- C8 witness: a state passing all three precondition checks whose
replay succeeds, on which `undo` returns the `UndoResult` and deletes the
invocation. -/
theorem claim_C8_witness :
    (undoPrecondFail undoOkSys.db = false ∧
      (undoOkSys.db.get_last_invocation).1 =
        some ⟨"i2", "python", "rm f", true, 3⟩ ∧
      undoLoop (sort_undo_ops (undoOkSys.db.get_last_invocation).2)
        undoOkSys.fs = Except.ok [(["f"], [9])]) ∧
    BatchOp2.undo undoOkSys = Except.ok
      (⟨Invocation.cmdline ⟨"i2", "python", "rm f", true, 3⟩,
        (undoOkSys.db.get_last_invocation).2.length⟩,
       ⟨[(["f"], [9])], undoOkSys.db.delete_invocation
         (Invocation.invocation_id ⟨"i2", "python", "rm f", true, 3⟩)⟩) :=
  ⟨by decide,
    (claim_C8 undoOkSys).2 (by decide) ⟨"i2", "python", "rm f", true, 3⟩
      (by decide) [(["f"], [9])] (by decide)⟩

/-- A system whose last invocation is a create-directory op whose
directory is now non-empty, for the C8 counterexample. -/
def undoCounterSys : Sys :=
  ⟨[(["d", "f"], [1])],
   ⟨[⟨"i1", "python", "mkdir d", true, 1⟩],
    [⟨"i1", OpType.create, [], ["d"]⟩], "python"⟩⟩

/-- C8 counterexample: all three precondition checks pass, yet `undo`
raises an error — the replay's `rmdir` fails on the non-empty created
directory — so "in all other cases it replays the ops and succeeds" is
false as stated. -/
theorem claim_C8_counterexample :
    undoPrecondFail undoCounterSys.db = false ∧
    BatchOp2.undo undoCounterSys =
      Except.error (BErr.osError "Directory not empty") := by
  decide

/-- C1: undo round-trip.  For any tree and any delete executed by the
orchestrator — each selected subtree root moved into the backup staging
area with one delete InvocationOp logged per path — running undo
afterwards restores the tree byte-for-byte and path-for-path (the
resulting state's `fs` is exactly the pre-delete `fs`); the same holds
for rename and for move.  The hypotheses state what the orchestrator
guarantees: the selected paths are pairwise non-nested
(`exclude_children`), the backup area (respectively the rename/move
destinations) is fresh and disjoint, the invocation id is unused and its
timestamp is the latest for the context. -/
theorem claim_C1 :
    (∀ (backupDir : Path) (sel : List Path) (invId : String) (t : Nat)
        (cmdline : String) (s : Sys),
      sel.Pairwise (fun p q => unrelated p q = true) →
      (∀ p ∈ sel, unrelated p backupDir = true) →
      pexists s.fs backupDir = false →
      (∀ x ∈ s.db.invocations, x.context = s.db.context →
        x.time_invoked_ms < t) →
      (∀ op ∈ s.db.ops, op.invocation_id ≠ invId) →
      ∀ out s1, BatchOp2.delete backupDir sel invId t cmdline s =
          Except.ok (out, s1) →
        BatchOp2.undo s1 = Except.ok (⟨cmdline, sel.length⟩,
          ⟨s.fs, s1.db.delete_invocation invId⟩)) ∧
    (∀ (pairs : List (Path × Path)) (invId : String) (t : Nat)
        (cmdline : String) (s : Sys),
      goodPairs s.fs pairs →
      (∀ x ∈ s.db.invocations, x.context = s.db.context →
        x.time_invoked_ms < t) →
      (∀ op ∈ s.db.ops, op.invocation_id ≠ invId) →
      ∀ out s1, BatchOp2.rename pairs invId t cmdline s =
          Except.ok (out, s1) →
        BatchOp2.undo s1 = Except.ok (⟨cmdline, pairs.length⟩,
          ⟨s.fs, s1.db.delete_invocation invId⟩)) ∧
    (∀ (pairs : List (Path × Path)) (invId : String) (t : Nat)
        (cmdline : String) (s : Sys),
      goodPairs s.fs pairs →
      (∀ x ∈ s.db.invocations, x.context = s.db.context →
        x.time_invoked_ms < t) →
      (∀ op ∈ s.db.ops, op.invocation_id ≠ invId) →
      ∀ out s1, BatchOp2.move pairs invId t cmdline s =
          Except.ok (out, s1) →
        BatchOp2.undo s1 = Except.ok (⟨cmdline, pairs.length⟩,
          ⟨s.fs, s1.db.delete_invocation invId⟩)) := by
  refine ⟨?_, ?_, ?_⟩
  · intro backupDir sel invId t cmdline s hpw hbd hfresh hts hops out s1 hok
    exact delete_undo_restores backupDir sel invId t cmdline s hpw hbd hfresh
      hts hops out s1 hok
  · intro pairs invId t cmdline s hgood hts hops out s1 hok
    exact moveLike_undo_restores OpType.rename (by simp) pairs invId t cmdline
      s hgood hts hops out s1 hok
  · intro pairs invId t cmdline s hgood hts hops out s1 hok
    exact moveLike_undo_restores OpType.move (by simp) pairs invId t cmdline
      s hgood hts hops out s1 hok

instance (fs : FS) (l : List (Path × Path)) : Decidable (goodPairs fs l) := by
  unfold goodPairs
  infer_instance

/-- Pre-delete tree for the C1 witness. -/
def delSys : Sys :=
  ⟨[(["a"], [1]), (["d", "x"], [2, 3]), (["keep"], [4])],
   ⟨[], [], "python"⟩⟩

/-- State after deleting `a` and `d` from `delSys`. -/
def delAfter : Sys :=
  ⟨[(["bk", "id1___00000001"], [1]), (["bk", "id1___00000002", "x"], [2, 3]),
    (["keep"], [4])],
   ⟨[⟨"id1", "python", "rm", true, 5⟩],
    [⟨"id1", OpType.delete, ["a"], ["bk", "id1___00000001"]⟩,
     ⟨"id1", OpType.delete, ["d"], ["bk", "id1___00000002"]⟩], "python"⟩⟩

/-- Pre-rename tree for the C1 witness. -/
def renSys : Sys :=
  ⟨[(["old1"], [7]), (["sub", "old2"], [8])], ⟨[], [], "python"⟩⟩

/-- State after renaming `old1` and `sub/old2` in `renSys`. -/
def renAfter : Sys :=
  ⟨[(["new1"], [7]), (["new2"], [8])],
   ⟨[⟨"idr", "python", "rn", true, 9⟩],
    [⟨"idr", OpType.rename, ["old1"], ["new1"]⟩,
     ⟨"idr", OpType.rename, ["sub", "old2"], ["new2"]⟩], "python"⟩⟩

/-- Pre-move tree for the C1 witness. -/
def movSys : Sys :=
  ⟨[(["m1"], [5])], ⟨[], [], "python"⟩⟩

/-- State after moving `m1` into `dest` in `movSys`. -/
def movAfter : Sys :=
  ⟨[(["dest", "m1"], [5])],
   ⟨[⟨"idm", "python", "mv", true, 4⟩],
    [⟨"idm", OpType.move, ["m1"], ["dest", "m1"]⟩], "python"⟩⟩

/-- C1 witness: concrete delete, rename and move runs whose undo restores
the original trees. -/
theorem claim_C1_witness :
    (([["a"], ["d"]] : List Path).Pairwise (fun p q => unrelated p q = true) ∧
      (∀ p ∈ ([["a"], ["d"]] : List Path), unrelated p ["bk"] = true) ∧
      pexists delSys.fs ["bk"] = false ∧
      BatchOp2.delete ["bk"] [["a"], ["d"]] "id1" 5 "rm" delSys =
        Except.ok ([["a"], ["d"]], delAfter) ∧
      goodPairs renSys.fs [(["old1"], ["new1"]), (["sub", "old2"], ["new2"])] ∧
      BatchOp2.rename [(["old1"], ["new1"]), (["sub", "old2"], ["new2"])]
        "idr" 9 "rn" renSys =
        Except.ok ([["old1"], ["sub", "old2"]], renAfter) ∧
      goodPairs movSys.fs [(["m1"], ["dest", "m1"])] ∧
      BatchOp2.move [(["m1"], ["dest", "m1"])] "idm" 4 "mv" movSys =
        Except.ok ([["m1"]], movAfter)) ∧
    (BatchOp2.undo delAfter = Except.ok
        (⟨"rm", ([["a"], ["d"]] : List Path).length⟩,
         ⟨delSys.fs, delAfter.db.delete_invocation "id1"⟩) ∧
     BatchOp2.undo renAfter = Except.ok
        (⟨"rn", [(["old1"], ["new1"]), (["sub", "old2"], ["new2"])].length⟩,
         ⟨renSys.fs, renAfter.db.delete_invocation "idr"⟩) ∧
     BatchOp2.undo movAfter = Except.ok
        (⟨"mv", [(["m1"], ["dest", "m1"])].length⟩,
         ⟨movSys.fs, movAfter.db.delete_invocation "idm"⟩)) :=
  ⟨by decide,
    claim_C1.1 ["bk"] [["a"], ["d"]] "id1" 5 "rm" delSys (by decide)
      (by decide) (by decide) (by decide) (by decide)
      [["a"], ["d"]] delAfter (by decide),
    claim_C1.2.1 [(["old1"], ["new1"]), (["sub", "old2"], ["new2"])]
      "idr" 9 "rn" renSys (by decide) (by decide) (by decide)
      [["old1"], ["sub", "old2"]] renAfter (by decide),
    claim_C1.2.2 [(["m1"], ["dest", "m1"])] "idm" 4 "mv" movSys
      (by decide) (by decide) (by decide) [["m1"]] movAfter (by decide)⟩

end Batchop
